import Mathlib

/-!
A verification development for the `tales-from-the-crypto` private-key
tools (`privkey.py`, `privkey_read.py`, `privkey_write.py`, `convert.py`,
`convert_revert.py`).

The Python source is shallowly embedded: Python `int` becomes `Int`
(or `Nat` where the value is a byte or an offset), `bytearray` becomes
`List Nat` (each element a byte value), Python floor division `//` and
`%` become `Int.fdiv` / `Int.fmod`, and raised exceptions become
`Except Err` values.  `while` loops are embedded as fuel-indexed
recursions; each top-level entry point supplies a fuel that is proved
sufficient (running out of fuel yields the distinguished error
`Err.Exhausted`, which the theorems below show is never produced on the
relevant inputs).
-/

/-- Error kinds.  Each constructor corresponds to an exception the Python
code can raise (`ZeroDivision` for `ZeroDivisionError`, `ValueError`,
`IndexOutOfRange` for `IndexError`, `NonHex` for the `TypeError` of the
hex codec, ...) or to an error name used by the specification
(`PrimeMismatch`, `NotInvertible`, `NegativeExponent`, `Negative`,
`PadTooShort`).  `Exhausted` marks fuel exhaustion of an embedded loop
and corresponds to no Python behaviour. -/
inductive Err where
  | PrimeMismatch
  | NotInvertible
  | NegativeExponent
  | Negative
  | ZeroDivision
  | ValueError
  | IndexOutOfRange
  | PadTooShort
  | NonHex
  | Exhausted
deriving DecidableEq, Repr

/-! ## Section 1: big integer functions (privkey.py, lines 82-181) -/

/-- The `while(v2 > 0)` loop of `egcd` (privkey.py lines 97-101):
`q = u2 // v2`, then `(u, v) <- (v, u - q*v)` componentwise.  `fuel`
bounds the number of iterations; `none` is fuel exhaustion. -/
def egcdLoop (fuel : Nat) (u0 u1 u2 v0 v1 v2 : Int) :
    Option (Int × Int × Int) :=
  match fuel with
  | 0 => none
  | fuel + 1 =>
    if v2 > 0 then
      let q := u2.fdiv v2
      egcdLoop fuel v0 v1 v2 (u0 - q * v0) (u1 - q * v1) (u2 - q * v2)
    else
      some (u0, u1, u2)

/-- The branch of `egcd` reached once both arguments are nonnegative
(privkey.py lines 86-102): if `a < b` the source recurses once with the
arguments swapped and swaps the first two components of the result;
otherwise it runs the descent loop from `(1,0,a),(0,1,b)`.  The fuel
`min a b + 1` strictly exceeds the iteration count because the loop's
`v2` starts at `min a b` (after the swap) and strictly decreases. -/
def egcdAux (a b : Int) : Option (Int × Int × Int) :=
  if a < b then
    (egcdLoop (a.toNat + 1) 1 0 b 0 1 a).map (fun h => (h.2.1, h.1, h.2.2))
  else
    egcdLoop (b.toNat + 1) 1 0 a 0 1 b

/-- `egcd(a, b)` (privkey.py lines 82-102).  A negative argument makes
the source recurse once on the absolute values. -/
def egcd (a b : Int) : Option (Int × Int × Int) :=
  if a < 0 ∨ b < 0 then egcdAux |a| |b| else egcdAux a b

/-- `lcm(a, b)` (privkey.py lines 105-109): `abs((a // g[2]) * b)`. -/
def lcm (a b : Int) : Option Int :=
  (egcd a b).map (fun g => |(a.fdiv g.2.2) * b|)

/-- `inv(k, m)` (privkey.py lines 112-118): raises `ArithmeticError`
when `g[2] != 1`, otherwise returns `g[0] % m` — which in Python raises
`ZeroDivisionError` when `m = 0`. -/
def inv (k m : Int) : Except Err Int :=
  match egcd k m with
  | none => .error .Exhausted
  | some g =>
    if g.2.2 ≠ 1 then .error .NotInvertible
    else if m = 0 then .error .ZeroDivision
    else .ok (g.1.fmod m)

/-- The `while(k)` loop of `powexp` (privkey.py lines 127-131), with the
exponent already known to be nonnegative and hence carried as a `Nat`.
Each iteration multiplies into the accumulator when the low bit is set,
halves `k` and squares `b`; the `% m` operations raise
`ZeroDivisionError` when `m = 0`. -/
def powexpLoop (fuel : Nat) (result b : Int) (k : Nat) (m : Int) :
    Except Err Int :=
  match fuel with
  | 0 => .error .Exhausted
  | fuel + 1 =>
    if k = 0 then .ok result
    else if m = 0 then .error .ZeroDivision
    else
      let result' := if k % 2 = 1 then (result * b).fmod m else result
      powexpLoop fuel result' ((b * b).fmod m) (k / 2) m

/-- `powexp(a, k, m)` (privkey.py lines 121-132): raises `ValueError`
on a negative exponent, otherwise runs the square-and-multiply loop
starting from `result = 1`, `b = a`. -/
def powexp (a k m : Int) : Except Err Int :=
  if k < 0 then .error .NegativeExponent
  else powexpLoop (k.toNat + 1) 1 a k.toNat m

/-- The `while(i)` loop of `to_bytes` (privkey.py lines 146-151), seen
from the little end: it emits `i & 0xff` and continues with `i >> 8`.
The source writes these bytes into a pre-allocated array back to front,
which is the reversal of this list. -/
def natToBytesLE (fuel n : Nat) : List Nat :=
  match fuel with
  | 0 => []
  | fuel + 1 =>
    if n = 0 then []
    else (n &&& 0xff) :: natToBytesLE fuel (n >>> 8)

/-- `to_bytes(i)` (privkey.py lines 136-154): `ValueError` for negative
input, a single zero byte for `0`, otherwise the big-endian byte string
of `i` (the source's back-to-front array fill).  The fuel `i.toNat`
strictly exceeds the byte count of any positive `i`. -/
def to_bytes (i : Int) : Except Err (List Nat) :=
  if i < 0 then .error .Negative
  else if i = 0 then .ok [0]
  else .ok (natToBytesLE i.toNat i.toNat).reverse

/-- Modelled from the spec: `from_bytes_be`, the big-endian
interpretation of a byte string.  It is not a function of the source,
but its accumulation step `v <<< 8 ||| b` is exactly the one used by the
source's `readintvasn1` loop. -/
def fromBytesBE (bs : List Nat) : Nat :=
  bs.foldl (fun v b => (v <<< 8) ||| b) 0

/-- `mkprivkey(mod, exp, p)` (privkey.py lines 158-173): `divmod(mod,p)`
(a `ZeroDivisionError` when `p = 0`), the `PrimeMismatch` check, and the
four modular inverses, collected as the list of nine key integers. -/
def mkprivkey (mod exp p : Int) : Except Err (List Int) :=
  if p = 0 then .error .ZeroDivision
  else
    let q := mod.fdiv p
    let r := mod.fmod p
    if r ≠ 0 then .error .PrimeMismatch
    else do
      let d ← inv exp ((p - 1) * (q - 1))
      let dp ← inv exp (p - 1)
      let dq ← inv exp (q - 1)
      let qinv ← inv q p
      .ok [0, mod, exp, d, p, q, dp, dq, qinv]

/-- `testprivkey(x, mod, e, d)` (privkey.py lines 176-180). -/
def testprivkey (x mod e d : Int) : Except Err Bool :=
  if x < 0 ∨ x ≥ mod then .error .ValueError
  else do
    let y ← powexp x e mod
    let z ← powexp y d mod
    .ok (z = x)

/-- Decidable equality of `Except Err` results, so that concrete runs of
the embedded functions can be checked by `decide`. -/
instance {α : Type} [DecidableEq α] : DecidableEq (Except Err α) := fun a b =>
  match a, b with
  | .ok x, .ok y =>
    if h : x = y then .isTrue (by rw [h])
    else .isFalse (by intro hc; injection hc; contradiction)
  | .error x, .error y =>
    if h : x = y then .isTrue (by rw [h])
    else .isFalse (by intro hc; injection hc; contradiction)
  | .ok _, .error _ => .isFalse (by intro hc; injection hc)
  | .error _, .ok _ => .isFalse (by intro hc; injection hc)

/-! ## Section 2: the SplitXor pipelines (convert.py, convert_revert.py)

Both tools run the same per-byte loop

    for i in range(len(payload)):
        outdata[i] = payload[i] ^ xordata1[offset1+i] ^ xordata2[offset2+i]
        payload[i] = 0

(`payload` is `p1_bin` in convert.py lines 115-118 and `xor_bin` in
convert_revert.py lines 102-105), followed by loops clearing both pad
buffers.  Reading `payload[i]` cannot fail (`i` ranges over the payload
indices), reading a pad past its end raises `IndexError` and aborts the
loop with the buffers in their current state. -/

/-- The shared XOR loop, processing the listed indices in order over the
mutable pair (payload, outdata).  The third component records a raised
`IndexError`, with the first two components holding the buffer contents
at the moment it was raised. -/
def xorLoop (x1 x2 : List Nat) (o1 o2 : Nat) :
    List Nat → List Nat → List Nat → List Nat × List Nat × Option Err
  | [], payload, out => (payload, out, none)
  | i :: rest, payload, out =>
    match x1[o1 + i]?, x2[o2 + i]? with
    | some a, some b =>
      xorLoop x1 x2 o1 o2 rest (payload.set i 0)
        (out.set i ((payload.getD i 0) ^^^ a ^^^ b))
    | _, _ => (payload, out, some .IndexOutOfRange)

/-- The XOR loop of convert.py (lines 113-118) run on a payload
`p1_bin`: `outdata` starts as `bytearray(len(p1_bin))`, i.e. zeros. -/
def convertXorRun (payload x1 x2 : List Nat) (o1 o2 : Nat) :
    List Nat × List Nat × Option Err :=
  xorLoop x1 x2 o1 o2 (List.range payload.length) payload
    (List.replicate payload.length 0)

/-- The XOR loop of convert_revert.py (lines 100-105) run on a payload
`xor_bin`; textually identical to the forward loop. -/
def revertXorRun (payload x1 x2 : List Nat) (o1 o2 : Nat) :
    List Nat × List Nat × Option Err :=
  xorLoop x1 x2 o1 o2 (List.range payload.length) payload
    (List.replicate payload.length 0)

/-- One lowercase hex digit, as its ASCII code (`binascii.hexlify`). -/
def hexDigitAscii (d : Nat) : Nat :=
  if d < 10 then 48 + d else 87 + d

/-- `binascii.hexlify` of a byte string, as ASCII codes. -/
def hexlify (bs : List Nat) : List Nat :=
  bs.flatMap (fun b => [hexDigitAscii (b / 16), hexDigitAscii (b % 16)])

/-- The value of one ASCII hex digit (`0-9a-fA-F`), if any. -/
def hexVal (c : Nat) : Option Nat :=
  if 48 ≤ c ∧ c ≤ 57 then some (c - 48)
  else if 97 ≤ c ∧ c ≤ 102 then some (c - 87)
  else if 65 ≤ c ∧ c ≤ 70 then some (c - 55)
  else none

/-- `binascii.unhexlify` / the `hex` codec: decode pairs of hex digits;
odd length or a non-hex character raises an error. -/
def unhexlify : List Nat → Except Err (List Nat)
  | [] => .ok []
  | [_] => .error .NonHex
  | a :: b :: rest =>
    match hexVal a, hexVal b with
    | some x, some y => (unhexlify rest).map (fun t => (16 * x + y) :: t)
    | _, _ => .error .NonHex

/-- Pad loading in convert.py (lines 43-52): first try the file as
ASCII text and hex-decode it; only if the ASCII decode fails (the file
contains a byte outside the ASCII range) fall back to using the raw
bytes.  The two Python decode steps are modelled by their effect on the
file's bytes: ASCII success is `all bytes < 128`, and the hex decode is
`unhexlify`. -/
def loadPadForward (content : List Nat) : Except Err (List Nat) :=
  if content.all (fun b => b < 128) then unhexlify content
  else .ok content

/-- Pad loading in convert_revert.py (lines 48-57): the ASCII branch
keeps the ASCII bytes themselves (`bytearray(f.read(), "ASCII")`), with
no hex decode; the binary fallback also keeps the raw bytes. -/
def loadPadReverse (content : List Nat) : Except Err (List Nat) :=
  if content.all (fun b => b < 128) then .ok content
  else .ok content

/-- Final buffer state of the forward tool (convert.py lines 113-131)
from the XOR loop on: on success the two pads are cleared byte by byte,
`result_bin = hexlify(outdata)` is printed and then cleared; `outdata`
itself is never cleared.  On an `IndexError` from the loop nothing
further runs. -/
structure ConvertResult where
  p1_bin : List Nat
  xordata1 : List Nat
  xordata2 : List Nat
  outdata : List Nat
  result_bin : List Nat
  printed : Option (List Nat)
  failure : Option Err
deriving DecidableEq, Repr

/-- convert.py from the XOR loop (line 113) to the end of the script. -/
def convertTail (p1_bin x1 x2 : List Nat) (o1 o2 : Nat) : ConvertResult :=
  match convertXorRun p1_bin x1 x2 o1 o2 with
  | (p1', out', some e) =>
    { p1_bin := p1', xordata1 := x1, xordata2 := x2, outdata := out',
      result_bin := [], printed := none, failure := some e }
  | (p1', out', none) =>
    let x1' := x1.map (fun _ => 0)
    let x2' := x2.map (fun _ => 0)
    let rb := hexlify out'
    { p1_bin := p1', xordata1 := x1', xordata2 := x2', outdata := out',
      result_bin := rb.map (fun _ => 0), printed := some rb,
      failure := none }

/-- Final buffer state of the reverse tool (convert_revert.py lines
100-112) from the XOR loop on: on success the two pads are cleared and
`p1 = hexlify(outdata)` is handed to the key writer; `outdata` is never
cleared. -/
structure RevertResult where
  xor_bin : List Nat
  xordata1 : List Nat
  xordata2 : List Nat
  outdata : List Nat
  p1hex : Option (List Nat)
  failure : Option Err
deriving DecidableEq, Repr

/-- convert_revert.py from the XOR loop (line 100) through the
`p1 = binascii.hexlify(outdata)` line. -/
def revertTail (xor_bin x1 x2 : List Nat) (o1 o2 : Nat) : RevertResult :=
  match revertXorRun xor_bin x1 x2 o1 o2 with
  | (xb', out', some e) =>
    { xor_bin := xb', xordata1 := x1, xordata2 := x2, outdata := out',
      p1hex := none, failure := some e }
  | (xb', out', none) =>
    { xor_bin := xb', xordata1 := x1.map (fun _ => 0),
      xordata2 := x2.map (fun _ => 0), outdata := out',
      p1hex := some (hexlify out'), failure := none }

/-! ## Section 3: ASN.1 readers (privkey.py, lines 224-325)

Python's heterogeneous parse results (`int`, or a list of results) are
embedded as the inductive `Asn1Val`; an OID (a Python list of ints) and
the `[]` default used for NULL and unknown tags become `.list` nodes of
`.int` leaves, exactly the shape Python produces. -/

/-- Parse results of `readtlvasn1`. -/
inductive Asn1Val where
  | int (v : Nat)
  | list (vs : List Asn1Val)
deriving Repr

/-- The big-endian accumulation loop `v = (v << 8) | octets[offs]`,
used by `readintvasn1` (privkey.py lines 227-230), by the long-form
length loop of `readtlvasn1` (lines 290-294), and by
`readbitstringvasn1` (lines 261-263).  `rem` counts the remaining
iterations; reading past the end of `octets` raises `IndexError`. -/
def beAccum (octets : List Nat) (v offs : Nat) : Nat → Except Err (Nat × Nat)
  | 0 => .ok (v, offs)
  | rem + 1 =>
    match octets[offs]? with
    | some b => beAccum octets ((v <<< 8) ||| b) (offs + 1) rem
    | none => .error .IndexOutOfRange

/-- `readintvasn1(octets, offs, size)` (privkey.py lines 224-233):
accumulate all bytes of the window `[offs, size)` big-endian and return
the value together with `size`. -/
def readintvasn1 (octets : List Nat) (offs size : Nat) :
    Except Err (Nat × Nat) :=
  (beAccum octets 0 offs (size - offs)).map (fun p => (p.1, size))

/-- `readoidvasn1(octets, offs, size)` (privkey.py lines 236-249).  The
loop body calls `readintvasn1`, which consumes the whole window, so at
most one iteration runs and its value `i` becomes `list(divmod(i, 40))`. -/
def readoidvasn1 (octets : List Nat) (offs size : Nat) :
    Except Err (List Nat × Nat) :=
  if offs < size then
    (readintvasn1 octets offs size).map
      (fun p => ([p.1 / 40, p.1 % 40], p.2))
  else .ok ([], offs)

/-- `readbitstringvasn1(octets, offs, size)` (privkey.py lines 252-268). -/
def readbitstringvasn1 (octets : List Nat) (offs size : Nat) :
    Except Err (Nat × Nat) :=
  if size - offs < 2 then .error .ValueError
  else
    match octets[offs]? with
    | none => .error .IndexOutOfRange
    | some pad =>
      if pad > 7 then .error .ValueError
      else do
        let (val, offs') ← beAccum octets 0 (offs + 1) (size - (offs + 1))
        if val &&& ((1 <<< pad) - 1) > 0 then .error .ValueError
        else .ok (val >>> pad, offs')

mutual

/-- `readtlvasn1(octets, offs, size)` (privkey.py lines 273-325), with
an explicit fuel bounding the recursion depth (`Err.Exhausted` when it
runs out; the wrapper below supplies a fuel shown sufficient in the
theorems).  Reads tag and length (short or long form), then dispatches:
SEQUENCE recurses over its children, INTEGER / OID / BITSTRING use
their value readers, NULL and unknown tags skip `leng` bytes and keep
the `[]` default value. -/
def readtlvasn1F : Nat → List Nat → Nat → Nat → Except Err (Asn1Val × Nat)
  | 0, _, _, _ => .error .Exhausted
  | fuel + 1, octets, offs, size =>
    if offs + 1 ≥ size then .error .ValueError
    else
      match octets[offs]?, octets[offs + 1]? with
      | some tag, some l0 => do
        let offs := offs + 2
        let (leng, offs) ←
          if l0 &&& 0x80 ≠ 0 then
            let nbytes := l0 &&& 0x7F
            if offs + nbytes ≥ size then .error .ValueError
            else beAccum octets 0 offs nbytes
          else pure (l0, offs)
        if tag = 0x30 then do
          let (vs, o) ← readSeqLoopF fuel octets offs (offs + leng)
          if o > offs + leng then .error .ValueError
          else .ok (.list vs, offs + leng)
        else if tag = 0x02 then do
          let (v, offs') ← readintvasn1 octets offs (offs + leng)
          .ok (.int v, offs')
        else if tag = 0x05 then
          .ok (.list [], offs + leng)
        else if tag = 0x06 then do
          let (arcs, offs') ← readoidvasn1 octets offs (offs + leng)
          .ok (.list (arcs.map .int), offs')
        else if tag = 0x03 then do
          let (v, offs') ← readbitstringvasn1 octets offs (offs + leng)
          .ok (.int v, offs')
        else
          .ok (.list [], offs + leng)
      | _, _ => .error .IndexOutOfRange

/-- The `while(o < end)` child loop of the SEQUENCE branch (privkey.py
lines 301-305). -/
def readSeqLoopF : Nat → List Nat → Nat → Nat →
    Except Err (List Asn1Val × Nat)
  | 0, _, _, _ => .error .Exhausted
  | fuel + 1, octets, o, stop =>
    if o < stop then do
      let (v, o') ← readtlvasn1F fuel octets o stop
      let (vs, oe) ← readSeqLoopF fuel octets o' stop
      .ok (v :: vs, oe)
    else .ok ([], o)

end

/-- `readtlvasn1` as called by the scripts; the fuel `size + 1` strictly
exceeds the recursion depth of any parse of a window of `size` bytes. -/
def readtlvasn1 (octets : List Nat) (offs size : Nat) :
    Except Err (Asn1Val × Nat) :=
  readtlvasn1F (size + 1) octets offs size

/-! ## Section 4: ASN.1 writers (privkey.py, lines 389-445) -/

/-- `writelengthasn1(length)` (privkey.py lines 389-399): short form for
`length < 0x80`, otherwise `0x80 | len(to_bytes(length))` followed by
the big-endian length bytes.  The first byte is a `bytearray` cell, so
a value above 255 raises `ValueError`; for 128 to 255 length bytes the
`|` silently collides with the `0x80` marker (the source comments "This
will fail if the length is 2**(128*8)"). -/
def writelengthasn1 (length : Nat) : Except Err (List Nat) :=
  if length < 0x80 then .ok [length]
  else do
    let o ← to_bytes (length : Int)
    let b := 0x80 ||| o.length
    if b > 255 then .error .ValueError
    else .ok (b :: o)

/-- `writeinttlvasn1(i)` (privkey.py lines 402-426): tag `0x02`, the
length (counting the optional zero pad byte), then a zero pad byte when
the top bit of the leading magnitude byte is set, then the magnitude.
(The source also computes a bit length `h` that it never uses.) -/
def writeinttlvasn1 (i : Int) : Except Err (List Nat) :=
  if i < 0 then .error .ValueError
  else do
    let m ← to_bytes i
    let (length, pad) :=
      if m.headD 0 ≥ 0x80 then (m.length + 1, [0])
      else (m.length, ([] : List Nat))
    let lenB ← writelengthasn1 length
    .ok (2 :: (lenB ++ (pad ++ m)))

/-- Items `writeseqtlvasn1` can serialize: Python ints and (nested)
lists thereof; any other element type raises `ValueError` in the
source and cannot occur here. -/
inductive PySeqItem where
  | int (i : Int)
  | list (l : List PySeqItem)
deriving Repr

mutual

/-- The body loop of `writeseqtlvasn1` (privkey.py lines 430-441):
concatenate the serializations of the items, dispatching on their type. -/
def writeseqbody : List PySeqItem → Except Err (List Nat)
  | [] => .ok []
  | .int i :: rest => do
    let a ← writeinttlvasn1 i
    let b ← writeseqbody rest
    .ok (a ++ b)
  | .list l :: rest => do
    let a ← writeseqtlvasn1 l
    let b ← writeseqbody rest
    .ok (a ++ b)

/-- `writeseqtlvasn1(seq)` (privkey.py lines 429-445): tag `0x30`, the
encoded body length, then the body. -/
def writeseqtlvasn1 (seq : List PySeqItem) : Except Err (List Nat) := do
  let body ← writeseqbody seq
  let lenB ← writelengthasn1 body.length
  .ok (0x30 :: (lenB ++ body))

end

/-! ## Lemmas about the big integer functions -/

/-- Subtracting a multiple of one argument from the other preserves the
gcd (the invariant of the Euclidean descent step). -/
theorem gcd_sub_mul (a b q : Int) : Int.gcd a (b - q * a) = Int.gcd a b := by
  apply Nat.dvd_antisymm
  · apply Int.natCast_dvd_natCast.mp
    refine Int.dvd_gcd Int.gcd_dvd_left ?_
    have h1 : (Int.gcd a (b - q * a) : Int) ∣ a := Int.gcd_dvd_left
    have h2 : (Int.gcd a (b - q * a) : Int) ∣ b - q * a := Int.gcd_dvd_right
    have h3 := dvd_add h2 (h1.mul_left q)
    rw [show b - q * a + q * a = b by ring] at h3
    exact h3
  · apply Int.natCast_dvd_natCast.mp
    refine Int.dvd_gcd Int.gcd_dvd_left ?_
    exact dvd_sub Int.gcd_dvd_right ((Int.gcd_dvd_left).mul_left q)

/-- The descent loop terminates within its fuel and returns a Bezout
triple: starting from rows satisfying `u0*a + u1*b = u2` and
`v0*a + v1*b = v2` with `u2, v2 ≥ 0`, it yields `(x, y, gcd u2 v2)`
with `x*a + y*b = gcd u2 v2`. -/
theorem egcdLoop_spec (a b : Int) :
    ∀ (fuel : Nat) (u0 u1 u2 v0 v1 v2 : Int),
      0 ≤ u2 → 0 ≤ v2 → v2.toNat < fuel →
      u0 * a + u1 * b = u2 → v0 * a + v1 * b = v2 →
      ∃ x y, egcdLoop fuel u0 u1 u2 v0 v1 v2 =
          some (x, y, (Int.gcd u2 v2 : Int)) ∧
        x * a + y * b = (Int.gcd u2 v2 : Int) := by
  intro fuel
  induction fuel with
  | zero => intro _ _ _ _ _ _ _ _ hfuel _ _; omega
  | succ f ih =>
    intro u0 u1 u2 v0 v1 v2 hu2 hv2 hfuel hbu hbv
    by_cases hv : v2 > 0
    · have hfm : u2 - u2.fdiv v2 * v2 = u2.fmod v2 := by
        rw [Int.fmod_def]; ring
      have h0 : 0 ≤ u2 - u2.fdiv v2 * v2 := hfm ▸ Int.fmod_nonneg' u2 hv
      have hlt : u2 - u2.fdiv v2 * v2 < v2 := hfm ▸ Int.fmod_lt_of_pos u2 hv
      have hb2 : (u0 - u2.fdiv v2 * v0) * a + (u1 - u2.fdiv v2 * v1) * b =
          u2 - u2.fdiv v2 * v2 := by
        rw [← hbu, ← hbv]; ring
      obtain ⟨x, y, hres, hxy⟩ :=
        ih v0 v1 v2 (u0 - u2.fdiv v2 * v0) (u1 - u2.fdiv v2 * v1)
          (u2 - u2.fdiv v2 * v2) (le_of_lt hv) h0 (by omega) hbv hb2
      have hg : Int.gcd v2 (u2 - u2.fdiv v2 * v2) = Int.gcd u2 v2 := by
        rw [gcd_sub_mul v2 u2 (u2.fdiv v2), Int.gcd_comm]
      refine ⟨x, y, ?_, ?_⟩
      · show egcdLoop (f + 1) u0 u1 u2 v0 v1 v2 = _
        rw [egcdLoop, if_pos hv]
        rw [hres, hg]
      · rw [← hg]; exact hxy
    · have hv0 : v2 = 0 := by omega
      subst hv0
      refine ⟨u0, u1, ?_, ?_⟩
      · show egcdLoop (f + 1) u0 u1 u2 v0 v1 0 = _
        rw [egcdLoop, if_neg hv]
        rw [Int.gcd_zero_right, Int.natAbs_of_nonneg hu2]
      · rw [Int.gcd_zero_right, Int.natAbs_of_nonneg hu2]; exact hbu

/-- `egcdAux` on nonnegative arguments returns a Bezout triple. -/
theorem egcdAux_spec {a b : Int} (ha : 0 ≤ a) (hb : 0 ≤ b) :
    ∃ x y, egcdAux a b = some (x, y, (Int.gcd a b : Int)) ∧
      x * a + y * b = (Int.gcd a b : Int) := by
  unfold egcdAux
  by_cases hab : a < b
  · rw [if_pos hab]
    obtain ⟨x, y, hres, hxy⟩ :=
      egcdLoop_spec b a (a.toNat + 1) 1 0 b 0 1 a hb ha (by omega)
        (by ring) (by ring)
    refine ⟨y, x, ?_, ?_⟩
    · rw [hres]
      simp [Option.map, Int.gcd_comm a b]
    · rw [Int.gcd_comm a b, ← hxy]; ring
  · rw [if_neg hab]
    obtain ⟨x, y, hres, hxy⟩ :=
      egcdLoop_spec a b (b.toNat + 1) 1 0 a 0 1 b ha hb (by omega)
        (by ring) (by ring)
    exact ⟨x, y, hres, hxy⟩

/-- `egcd` always terminates within its fuel, and its triple `(x, y, g)`
satisfies `x*|a| + y*|b| = g = gcd(|a|, |b|) ≥ 0`: the Bezout identity
holds for the absolute values of the arguments (the source reduces
negative arguments to their absolute values, so for negative input the
identity need not hold for the arguments themselves). -/
theorem egcd_spec (a b : Int) :
    ∃ x y, egcd a b = some (x, y, (Int.gcd a b : Int)) ∧
      x * |a| + y * |b| = (Int.gcd a b : Int) := by
  unfold egcd
  by_cases hneg : a < 0 ∨ b < 0
  · rw [if_pos hneg]
    obtain ⟨x, y, hres, hxy⟩ := egcdAux_spec (abs_nonneg a) (abs_nonneg b)
    have hgg : Int.gcd |a| |b| = Int.gcd a b := by
      simp [Int.gcd, Int.natAbs_abs]
    rw [hgg] at hres hxy
    exact ⟨x, y, hres, hxy⟩
  · rw [if_neg hneg]
    push_neg at hneg
    obtain ⟨x, y, hres, hxy⟩ := egcdAux_spec hneg.1 hneg.2
    refine ⟨x, y, hres, ?_⟩
    rw [abs_of_nonneg hneg.1, abs_of_nonneg hneg.2]
    exact hxy

/-- `inv k m` for `k ≥ 0`, `m > 0`, `gcd(k, m) = 1` returns the modular
inverse of `k`, reduced into `[0, m)`. -/
theorem inv_spec {k m : Int} (hk : 0 ≤ k) (hm : 0 < m)
    (hg : Int.gcd k m = 1) :
    ∃ r, inv k m = .ok r ∧ m ∣ (k * r - 1) ∧ 0 ≤ r ∧ r < m := by
  obtain ⟨x, y, hres, hxy⟩ := egcd_spec k m
  rw [abs_of_nonneg hk, abs_of_nonneg hm.le, hg] at hxy
  refine ⟨x.fmod m, ?_, ?_, Int.fmod_nonneg' x hm, Int.fmod_lt_of_pos x hm⟩
  · unfold inv
    rw [hres, hg]
    simp [hm.ne']
  · have h1 : m ∣ k * x - 1 := ⟨-y, by push_cast at hxy; linear_combination hxy⟩
    have h2 : m ∣ (x % m - x) := ⟨-(x / m), by rw [Int.emod_def]; ring⟩
    have h3 := dvd_add (h2.mul_left k) h1
    rw [show k * (x % m - x) + (k * x - 1) = k * (x % m) - 1 by ring] at h3
    rw [Int.fmod_eq_emod _ hm.le]
    exact h3

/-- `mkprivkey` on a valid input: nonnegative `n` and `e`, a divisor
`p ≥ 2` of `n` with `n ≠ p` (so that the totient is nonzero), and the
coprimality conditions.  It returns the nine key integers, with each
inverse correct modulo its modulus and reduced into `[0, modulus)`. -/
theorem mkprivkey_spec {n e p : Int} (hn : 0 ≤ n) (he : 0 ≤ e) (hp : 2 ≤ p)
    (hdvd : p ∣ n) (hnp : n ≠ p)
    (h1 : Int.gcd e ((p - 1) * (n.fdiv p - 1)) = 1)
    (h2 : Int.gcd e (p - 1) = 1)
    (h3 : Int.gcd e (n.fdiv p - 1) = 1)
    (h4 : Int.gcd (n.fdiv p) p = 1) :
    ∃ d dp dq qinv,
      mkprivkey n e p = .ok [0, n, e, d, p, n.fdiv p, dp, dq, qinv] ∧
      p * n.fdiv p = n ∧
      ((p - 1) * (n.fdiv p - 1)) ∣ (e * d - 1) ∧
        0 ≤ d ∧ d < (p - 1) * (n.fdiv p - 1) ∧
      (p - 1) ∣ (e * dp - 1) ∧ 0 ≤ dp ∧ dp < p - 1 ∧
      (n.fdiv p - 1) ∣ (e * dq - 1) ∧ 0 ≤ dq ∧ dq < n.fdiv p - 1 ∧
      p ∣ (n.fdiv p * qinv - 1) ∧ 0 ≤ qinv ∧ qinv < p := by
  have hp0 : (0 : Int) < p := by omega
  have hr : n.fmod p = 0 := by
    rw [Int.fmod_eq_emod _ hp0.le]; exact Int.emod_eq_zero_of_dvd hdvd
  have hq : p * n.fdiv p = n := by
    have h := Int.fmod_add_fdiv n p
    rw [hr] at h; linarith
  have hq0 : 0 ≤ n.fdiv p := Int.fdiv_nonneg hn hp0.le
  have hq1 : n.fdiv p ≠ 1 := by
    intro hc; rw [hc, mul_one] at hq; exact hnp hq.symm
  have hqz : n.fdiv p ≠ 0 := by
    intro hc
    rw [hc, Int.gcd_zero_left] at h4
    have : p.natAbs = 1 := h4
    omega
  have hq2 : 2 ≤ n.fdiv p := by omega
  have hm1 : (0 : Int) < (p - 1) * (n.fdiv p - 1) :=
    mul_pos (by omega) (by omega)
  obtain ⟨d, hd, hdcong, hd0, hdlt⟩ := inv_spec he hm1 h1
  obtain ⟨dp, hdp, hdpcong, hdp0, hdplt⟩ :=
    inv_spec he (show (0 : Int) < p - 1 by omega) h2
  obtain ⟨dq, hdq, hdqcong, hdq0, hdqlt⟩ :=
    inv_spec he (show (0 : Int) < n.fdiv p - 1 by omega) h3
  obtain ⟨qinv, hqi, hqicong, hqi0, hqilt⟩ := inv_spec hq0 hp0 h4
  refine ⟨d, dp, dq, qinv, ?_, hq, hdcong, hd0, hdlt, hdpcong, hdp0, hdplt,
    hdqcong, hdq0, hdqlt, hqicong, hqi0, hqilt⟩
  unfold mkprivkey
  rw [if_neg (by omega : ¬p = 0), hr]
  rw [if_neg (show ¬((0 : Int) ≠ 0) by simp)]
  rw [hd, hdp, hdq, hqi]
  rfl

/-- The square-and-multiply loop computes `res * b^k mod m` for `m > 0`
(except that for `k = 0` it returns `res` unreduced). -/
theorem powexpLoop_spec {m : Int} (hm : 0 < m) :
    ∀ (fuel k : Nat), k < fuel → ∀ (res b : Int),
      powexpLoop fuel res b k m =
        .ok (if k = 0 then res else (res * b ^ k).fmod m) := by
  intro fuel
  induction fuel with
  | zero => intro k hk; omega
  | succ f ih =>
    intro k hk res b
    by_cases hk0 : k = 0
    · subst hk0
      rw [powexpLoop, if_pos rfl, if_pos rfl]
    · rw [powexpLoop, if_neg hk0, if_neg (by omega : ¬m = 0), if_neg hk0]
      rw [ih (k / 2) (by omega) _ _]
      by_cases hk1 : k / 2 = 0
      · have hk' : k = 1 := by omega
        subst hk'
        norm_num
      · rw [if_neg hk1]
        have h2 : 0 ≤ m := hm.le
        simp only [Int.fmod_eq_emod _ h2]
        have e1 : Int.ModEq m ((b * b) % m) (b * b) :=
          Int.emod_emod_of_dvd (b * b) dvd_rfl
        have e2 : Int.ModEq m (((b * b) % m) ^ (k / 2)) ((b * b) ^ (k / 2)) :=
          e1.pow (k / 2)
        have hsplit : b ^ k = (b * b) ^ (k / 2) * b ^ (k % 2) := by
          rw [show b * b = b ^ 2 by ring, ← pow_mul, ← pow_add]
          congr 1
          omega
        by_cases hpar : k % 2 = 1
        · rw [if_pos hpar]
          have e3 : Int.ModEq m ((res * b) % m) (res * b) :=
            Int.emod_emod_of_dvd (res * b) dvd_rfl
          have e4 := e3.mul e2
          have : res * b * (b * b) ^ (k / 2) = res * b ^ k := by
            rw [hsplit, hpar]; ring
          rw [this] at e4
          exact congrArg Except.ok e4
        · rw [if_neg hpar]
          have hpar0 : k % 2 = 0 := by omega
          have e4 := (@Int.ModEq.refl m res).mul e2
          have : res * (b * b) ^ (k / 2) = res * b ^ k := by
            rw [hsplit, hpar0]; ring
          rw [this] at e4
          exact congrArg Except.ok e4

/-- `powexp a k m` for `k ≥ 0`, `m > 0` computes `a^k mod m`, except
at `k = 0, m = 1` where the loop never runs and the unreduced initial
accumulator `1` is returned (instead of `0 = a^0 mod 1`); a negative
exponent is rejected. -/
theorem powexp_correct :
    (∀ a k m : Int, 0 ≤ k → 0 < m → ¬(k = 0 ∧ m = 1) →
      powexp a k m = .ok ((a ^ k.toNat).fmod m)) ∧
    (∀ a : Int, powexp a 0 1 = .ok 1) ∧
    (∀ a k m : Int, k < 0 → powexp a k m = .error .NegativeExponent) := by
  refine ⟨?_, ?_, ?_⟩
  · intro a k m hk hm hkm
    rw [powexp, if_neg (by omega : ¬k < 0)]
    rw [powexpLoop_spec hm _ k.toNat (by omega) 1 a]
    by_cases hk0 : k.toNat = 0
    · rw [if_pos hk0, hk0]
      have hm1 : (1 : Int) < m := by
        rcases lt_or_eq_of_le hm with h | h
        · omega
        · exfalso; exact hkm ⟨by omega, by omega⟩
      rw [pow_zero, Int.fmod_eq_of_lt (by omega) hm1]
    · rw [if_neg hk0, one_mul]
  · intro a
    rfl
  · intro a k m hk
    rw [powexp, if_pos hk]

/-! ## Lemmas about `to_bytes` -/

theorem n_lt_256_pow (n : Nat) : n < 256 ^ n := by
  induction n with
  | zero => norm_num
  | succ k ih =>
    have h1 : 0 < 256 ^ k := pow_pos (by norm_num) k
    have h2 : 256 ^ (k + 1) = 256 ^ k * 256 := pow_succ 256 k
    omega

theorem natToBytesLE_bytes_lt :
    ∀ fuel n, ∀ x ∈ natToBytesLE fuel n, x < 256 := by
  intro fuel
  induction fuel with
  | zero => intro n x hx; simp [natToBytesLE] at hx
  | succ f ih =>
    intro n x hx
    rw [natToBytesLE] at hx
    by_cases hn : n = 0
    · rw [if_pos hn] at hx; simp at hx
    · rw [if_neg hn] at hx
      rcases List.mem_cons.mp hx with h | h
      · subst h
        have : n &&& 255 = n % 256 := by
          have h := Nat.and_pow_two_sub_one_eq_mod n 8
          norm_num at h
          exact h
        rw [this]
        exact Nat.mod_lt n (by norm_num)
      · exact ih (n >>> 8) x h

theorem natToBytesLE_fromBE :
    ∀ fuel n, n < 256 ^ fuel →
      fromBytesBE (natToBytesLE fuel n).reverse = n := by
  intro fuel
  induction fuel with
  | zero =>
    intro n hn
    interval_cases n
    rfl
  | succ f ih =>
    intro n hn
    by_cases hn0 : n = 0
    · subst hn0; rfl
    · rw [natToBytesLE, if_neg hn0]
      have hdiv : n >>> 8 = n / 256 := by
        rw [Nat.shiftRight_eq_div_pow]
      have hmod : n &&& 255 = n % 256 := by
        have h := Nat.and_pow_two_sub_one_eq_mod n 8
        norm_num at h
        exact h
      have hlt : n / 256 < 256 ^ f := by
        rw [Nat.div_lt_iff_lt_mul (by norm_num : 0 < 256)]
        calc n < 256 ^ (f + 1) := hn
        _ = 256 ^ f * 256 := pow_succ 256 f
      have ihx := ih (n >>> 8) (hdiv ▸ hlt)
      rw [List.reverse_cons]
      unfold fromBytesBE
      rw [List.foldl_append]
      unfold fromBytesBE at ihx
      rw [ihx]
      simp only [List.foldl_cons, List.foldl_nil]
      rw [hdiv, hmod, Nat.shiftLeft_eq]
      have hmlt : n % 256 < 2 ^ 8 := by
        have h := Nat.mod_lt n (show 0 < 256 by norm_num)
        norm_num
        exact h
      have hor := Nat.mul_add_lt_is_or hmlt (n / 256)
      rw [mul_comm (n / 256) (2 ^ 8), ← hor]
      norm_num
      omega

theorem natToBytesLE_length :
    ∀ fuel n, 0 < n → n < 256 ^ fuel →
      256 ^ ((natToBytesLE fuel n).length - 1) ≤ n ∧
        n < 256 ^ (natToBytesLE fuel n).length := by
  intro fuel
  induction fuel with
  | zero => intro n h0 hn; omega
  | succ f ih =>
    intro n h0 hn
    rw [natToBytesLE, if_neg (by omega : ¬n = 0)]
    have hdiv : n >>> 8 = n / 256 := by
      rw [Nat.shiftRight_eq_div_pow]
    by_cases hsm : n < 256
    · have : n / 256 = 0 := Nat.div_eq_of_lt hsm
      have hrest : natToBytesLE f (n >>> 8) = [] := by
        rw [hdiv, this]
        cases f with
        | zero => rfl
        | succ f' => rw [natToBytesLE, if_pos rfl]
      rw [hrest]
      simp
      omega
    · have hq0 : 0 < n / 256 := Nat.div_pos (by omega) (by norm_num)
      have hqlt : n / 256 < 256 ^ f := by
        rw [Nat.div_lt_iff_lt_mul (by norm_num : 0 < 256)]
        calc n < 256 ^ (f + 1) := hn
        _ = 256 ^ f * 256 := pow_succ 256 f
      obtain ⟨hlo, hhi⟩ := ih (n / 256) hq0 hqlt
      rw [← hdiv] at hlo hhi
      set L := (natToBytesLE f (n >>> 8)).length with hL
      have hL1 : 1 ≤ L := by
        by_contra hc
        have : L = 0 := by omega
        rw [this] at hhi
        simp at hhi
        rw [hdiv] at hhi
        omega
      constructor
      · have : (L + 1 : Nat) - 1 = (L - 1) + 1 := by omega
        simp only [List.length_cons]
        rw [this, pow_succ]
        have h1 : 256 ^ (L - 1) * 256 ≤ (n >>> 8) * 256 :=
          Nat.mul_le_mul_right 256 hlo
        have h2 : (n / 256) * 256 ≤ n := Nat.div_mul_le_self n 256
        rw [hdiv] at h1
        omega
      · simp only [List.length_cons, pow_succ]
        have h1 : n / 256 + 1 ≤ 256 ^ L := by rw [hdiv] at hhi; omega
        have h2 : n < (n / 256 + 1) * 256 := by
          have := Nat.div_add_mod n 256
          have := Nat.mod_lt n (show 0 < 256 by norm_num)
          omega
        calc n < (n / 256 + 1) * 256 := h2
        _ ≤ 256 ^ L * 256 := Nat.mul_le_mul_right 256 h1

theorem natToBytesLE_head_ne_zero :
    ∀ fuel n, 0 < n → n < 256 ^ fuel →
      ∃ h t, (natToBytesLE fuel n).reverse = h :: t ∧ h ≠ 0 := by
  intro fuel
  induction fuel with
  | zero => intro n h0 hn; omega
  | succ f ih =>
    intro n h0 hn
    rw [natToBytesLE, if_neg (by omega : ¬n = 0)]
    have hdiv : n >>> 8 = n / 256 := by
      rw [Nat.shiftRight_eq_div_pow]
    by_cases hsm : n < 256
    · have hq : n / 256 = 0 := Nat.div_eq_of_lt hsm
      have hrest : natToBytesLE f (n >>> 8) = [] := by
        rw [hdiv, hq]
        cases f with
        | zero => rfl
        | succ f' => rw [natToBytesLE, if_pos rfl]
      rw [hrest]
      refine ⟨n &&& 255, [], by simp, ?_⟩
      have hmod : n &&& 255 = n % 256 := by
        have h := Nat.and_pow_two_sub_one_eq_mod n 8
        norm_num at h
        exact h
      rw [hmod, Nat.mod_eq_of_lt hsm]
      omega
    · have hq0 : 0 < n / 256 := Nat.div_pos (by omega) (by norm_num)
      have hqlt : n / 256 < 256 ^ f := by
        rw [Nat.div_lt_iff_lt_mul (by norm_num : 0 < 256)]
        calc n < 256 ^ (f + 1) := hn
        _ = 256 ^ f * 256 := pow_succ 256 f
      obtain ⟨h, t, hrev, hne⟩ := ih (n / 256) hq0 hqlt
      rw [← hdiv] at hrev
      rw [List.reverse_cons, hrev]
      exact ⟨h, t ++ [n &&& 255], by simp, hne⟩

/-- `to_bytes` round-trips through big-endian interpretation, produces
exactly `max(1, ceil(bitlen/8))` bytes (`Nat.size` is Python's
`bit_length`), all of byte range, with a non-zero leading byte for
positive input, and rejects negative input. -/
theorem to_bytes_spec :
    (∀ i : Int, 0 ≤ i → ∃ bs, to_bytes i = .ok bs ∧
      (fromBytesBE bs : Int) = i ∧
      bs.length = max 1 ((Nat.size i.toNat + 7) / 8) ∧
      (∀ x ∈ bs, x < 256) ∧
      (0 < i → ∃ h t, bs = h :: t ∧ h ≠ 0)) ∧
    (∀ i : Int, i < 0 → to_bytes i = .error .Negative) := by
  constructor
  · intro i hi
    by_cases h0 : i = 0
    · subst h0
      refine ⟨[0], rfl, by norm_num [fromBytesBE], ?_, by norm_num, by omega⟩
      norm_num [Nat.size_zero]
    · have hn : 0 < i.toNat := by omega
      refine ⟨(natToBytesLE i.toNat i.toNat).reverse, ?_, ?_, ?_, ?_, ?_⟩
      · unfold to_bytes
        rw [if_neg (by omega : ¬i < 0), if_neg h0]
      · rw [natToBytesLE_fromBE i.toNat i.toNat (n_lt_256_pow _)]
        omega
      · obtain ⟨hlo, hhi⟩ :=
          natToBytesLE_length i.toNat i.toNat hn (n_lt_256_pow _)
        rw [List.length_reverse]
        set L := (natToBytesLE i.toNat i.toNat).length with hLdef
        have hL1 : 1 ≤ L := by
          rcases Nat.eq_zero_or_pos L with h | h
          · rw [h, pow_zero] at hhi; omega
          · exact h
        have hpow1 : (2 : Nat) ^ (8 * L) = 256 ^ L := by
          rw [pow_mul]; norm_num
        have hpow2 : (2 : Nat) ^ (8 * (L - 1)) = 256 ^ (L - 1) := by
          rw [pow_mul]; norm_num
        have hup : Nat.size i.toNat ≤ 8 * L := by
          apply Nat.size_le.mpr
          rw [hpow1]; exact hhi
        have hlo' : 8 * (L - 1) < Nat.size i.toNat := by
          apply Nat.lt_size.mpr
          rw [hpow2]; exact hlo
        omega
      · intro x hx
        exact natToBytesLE_bytes_lt i.toNat i.toNat x
          (List.mem_reverse.mp hx)
      · intro _
        exact natToBytesLE_head_ne_zero i.toNat i.toNat hn (n_lt_256_pow _)
  · intro i hi
    unfold to_bytes
    rw [if_pos hi]

/-! ## Lemmas about the XOR loop -/

theorem getD_of_lt {l : List Nat} {j : Nat} (h : j < l.length) :
    l.getD j 0 = l[j] := by
  simp [List.getElem?_eq_getElem h]

/-- Triple xor by the same two pad bytes cancels. -/
theorem xor_xor_cancel (p a b : Nat) : p ^^^ a ^^^ b ^^^ a ^^^ b = p := by
  apply Nat.eq_of_testBit_eq
  intro i
  simp only [Nat.testBit_xor]
  cases p.testBit i <;> cases a.testBit i <;> cases b.testBit i <;> rfl

/-- A successful run of the XOR loop over indices `[k, k+r)`: within the
processed range the payload reads zero and the output buffer holds the
three-way XOR of the original payload and pad bytes; outside it both
buffers are untouched. -/
theorem xorLoop_run (x1 x2 : List Nat) (o1 o2 : Nat) :
    ∀ (r k : Nat) (payload out : List Nat),
      k + r ≤ payload.length →
      o1 + payload.length ≤ x1.length →
      o2 + payload.length ≤ x2.length →
      out.length = payload.length →
      ∃ p' o',
        xorLoop x1 x2 o1 o2 (List.range' k r) payload out = (p', o', none) ∧
        p'.length = payload.length ∧ o'.length = payload.length ∧
        (∀ j, k ≤ j → j < k + r → p'.getD j 0 = 0) ∧
        (∀ j, j < k ∨ k + r ≤ j → p'.getD j 0 = payload.getD j 0) ∧
        (∀ j, k ≤ j → j < k + r →
          o'.getD j 0 =
            payload.getD j 0 ^^^ x1.getD (o1 + j) 0 ^^^ x2.getD (o2 + j) 0) ∧
        (∀ j, j < k ∨ k + r ≤ j → o'.getD j 0 = out.getD j 0) := by
  intro r
  induction r with
  | zero =>
    intro k payload out _ _ _ hout
    refine ⟨payload, out, rfl, rfl, hout, ?_, fun _ _ => rfl, ?_,
      fun _ _ => rfl⟩
    · intro j h1 h2; omega
    · intro j h1 h2; omega
  | succ r ih =>
    intro k payload out hlen h1 h2 hout
    have hk : k < payload.length := by omega
    have hko : k < out.length := by omega
    have ha : x1[o1 + k]? = some x1[o1 + k] :=
      List.getElem?_eq_getElem (by omega)
    have hb : x2[o2 + k]? = some x2[o2 + k] :=
      List.getElem?_eq_getElem (by omega)
    rw [List.range'_succ]
    obtain ⟨p', o', hrun, hpl, hol, hpin, hpout, hoin, hoout⟩ :=
      ih (k + 1) (payload.set k 0)
        (out.set k ((payload.getD k 0) ^^^ x1[o1 + k] ^^^ x2[o2 + k]))
        (by simp; omega) (by simp; omega) (by simp; omega) (by simp; omega)
    rw [List.length_set] at hpl
    rw [List.length_set] at hol
    refine ⟨p', o', ?_, hpl, by omega, ?_, ?_, ?_, ?_⟩
    · simp only [xorLoop, ha, hb]
      exact hrun
    · intro j hj1 hj2
      by_cases hjk : j = k
      · rw [hjk, hpout k (by omega)]
        simp [List.getElem?_set_self hk]
      · exact hpin j (by omega) (by omega)
    · intro j hj
      rw [hpout j (by omega)]
      simp [List.getElem?_set_ne (show k ≠ j by omega)]
    · intro j hj1 hj2
      by_cases hjk : j = k
      · rw [hjk, hoout k (by omega)]
        simp [List.getElem?_set_self hko, ha, hb]
      · rw [hoin j (by omega) (by omega)]
        simp [List.getElem?_set_ne (show k ≠ j by omega)]
    · intro j hj
      rw [hoout j (by omega)]
      simp [List.getElem?_set_ne (show k ≠ j by omega)]

/-- If some index in `[k, k+r)` reaches past the end of either pad, the
XOR loop raises `IndexError`. -/
theorem xorLoop_err (x1 x2 : List Nat) (o1 o2 : Nat) :
    ∀ (r k : Nat) (payload out : List Nat),
      (∃ j, k ≤ j ∧ j < k + r ∧
        (x1.length ≤ o1 + j ∨ x2.length ≤ o2 + j)) →
      (xorLoop x1 x2 o1 o2 (List.range' k r) payload out).2.2 =
        some .IndexOutOfRange := by
  intro r
  induction r with
  | zero =>
    intro k payload out hex
    obtain ⟨j, hj1, hj2, _⟩ := hex
    omega
  | succ r ih =>
    intro k payload out hex
    obtain ⟨j, hj1, hj2, hj3⟩ := hex
    rw [List.range'_succ]
    cases hx1 : x1[o1 + k]? with
    | some a =>
      cases hx2 : x2[o2 + k]? with
      | some b =>
        simp only [xorLoop, hx1, hx2]
        apply ih
        have hjk : j ≠ k := by
          intro hc
          subst hc
          rcases hj3 with h | h
          · rw [List.getElem?_len_le h] at hx1; exact Option.noConfusion hx1
          · rw [List.getElem?_len_le h] at hx2; exact Option.noConfusion hx2
        exact ⟨j, by omega, by omega, hj3⟩
      | none => simp [xorLoop, hx1, hx2]
    | none =>
      cases hx2 : x2[o2 + k]? with
      | some b => simp [xorLoop, hx1, hx2]
      | none => simp [xorLoop, hx1, hx2]

/-- The two per-byte XOR transforms are mutually inverse: with both pads
long enough and the same pads and offsets fed to both pipelines, the
reverse loop applied to the forward loop's output recovers the payload
exactly (and both runs zeroize their payload buffer and succeed). -/
theorem splitxor_involution (H x1 x2 : List Nat) (o1 o2 : Nat)
    (h1 : o1 + H.length ≤ x1.length) (h2 : o2 + H.length ≤ x2.length) :
    ∃ Y, convertXorRun H x1 x2 o1 o2 =
        (List.replicate H.length 0, Y, none) ∧
      Y.length = H.length ∧
      revertXorRun Y x1 x2 o1 o2 = (List.replicate H.length 0, H, none) := by
  obtain ⟨p', o', hrun, hpl, hol, hpin, _, hoin, _⟩ :=
    xorLoop_run x1 x2 o1 o2 H.length 0 H (List.replicate H.length 0)
      (by omega) h1 h2 (by simp)
  have hp' : p' = List.replicate H.length 0 := by
    apply List.ext_getElem (by simp [hpl])
    intro i hi1 hi2
    have hz := hpin i (by omega) (by omega)
    rw [getD_of_lt (by omega)] at hz
    rw [hz]
    simp
  refine ⟨o', ?_, by omega, ?_⟩
  · unfold convertXorRun
    rw [List.range_eq_range', hrun, hp']
  · obtain ⟨p'', o'', hrun2, hpl2, hol2, hpin2, _, hoin2, _⟩ :=
      xorLoop_run x1 x2 o1 o2 o'.length 0 o'
        (List.replicate o'.length 0) (by omega) (by omega) (by omega)
        (by simp)
    have hp'' : p'' = List.replicate H.length 0 := by
      apply List.ext_getElem (by simp [hpl2]; omega)
      intro i hi1 hi2
      have hz := hpin2 i (by omega) (by omega)
      rw [getD_of_lt (by omega)] at hz
      rw [hz]
      simp
    have ho'' : o'' = H := by
      apply List.ext_getElem (by omega)
      intro i hi1 hi2
      have hv := hoin2 i (by omega) (by omega)
      rw [hoin i (by omega) (by omega)] at hv
      rw [xor_xor_cancel] at hv
      rw [getD_of_lt (by omega)] at hv
      rw [hv, getD_of_lt (by omega)]
    unfold revertXorRun
    rw [List.range_eq_range', hrun2, hp'', ho'']

/-! ## Lemmas about the ASN.1 codec -/

theorem and128_eq_zero {x : Nat} (h : x < 128) : x &&& 128 = 0 := by
  have h1 : x &&& 128 = x &&& 2 ^ 7 := by norm_num
  rw [h1, Nat.and_two_pow]
  rw [Nat.testBit_lt_two_pow (by norm_num; omega)]
  rfl

theorem or128_eq_add {u : Nat} (h : u < 128) : 128 ||| u = 128 + u := by
  have h1 := Nat.mul_add_lt_is_or (show u < 2 ^ 7 by norm_num; omega) 1
  norm_num at h1
  omega

theorem or128_and_high {u : Nat} (h : u < 128) : (128 ||| u) &&& 128 ≠ 0 := by
  rw [or128_eq_add h]
  have h1 : (128 + u) &&& 128 = (2 ^ 7 + u) &&& 2 ^ 7 := by norm_num
  rw [h1, Nat.and_two_pow, Nat.testBit_two_pow_add_eq,
    Nat.testBit_lt_two_pow (by norm_num; omega)]
  norm_num

theorem or128_and_low {u : Nat} (h : u < 128) : (128 ||| u) &&& 127 = u := by
  rw [or128_eq_add h]
  have h1 : (128 + u) &&& 127 = (128 + u) &&& (2 ^ 7 - 1) := by norm_num
  rw [h1, Nat.and_pow_two_sub_one_eq_mod]
  omega

theorem getElem?_middle (pre l post : List Nat) (i : Nat) (h : i < l.length) :
    (pre ++ l ++ post)[pre.length + i]? = l[i]? := by
  rw [List.append_assoc, List.getElem?_append_right (by omega)]
  rw [show pre.length + i - pre.length = i by omega]
  rw [List.getElem?_append_left h]

/-- `beAccum` over a fully in-range window folds the window's bytes. -/
theorem beAccum_window :
    ∀ (bytes pre post : List Nat) (v : Nat),
      beAccum (pre ++ bytes ++ post) v pre.length bytes.length =
        .ok (bytes.foldl (fun acc b => (acc <<< 8) ||| b) v,
          pre.length + bytes.length) := by
  intro bytes
  induction bytes with
  | nil => intro pre post v; simp [beAccum]
  | cons b rest ih =>
    intro pre post v
    have hb : (pre ++ (b :: rest) ++ post)[pre.length]? = some b := by
      have := getElem?_middle pre (b :: rest) post 0 (by simp)
      simpa using this
    show beAccum (pre ++ (b :: rest) ++ post) v pre.length
        (rest.length + 1) = _
    simp only [beAccum, hb]
    have hoct : pre ++ (b :: rest) ++ post = (pre ++ [b]) ++ rest ++ post := by
      simp
    rw [hoct, show pre.length + 1 = (pre ++ [b]).length by simp]
    rw [ih (pre ++ [b]) post ((v <<< 8) ||| b)]
    simp
    omega

theorem errBind_ok {α β : Type} (a : α) (f : α → Except Err β) :
    ((Except.ok a : Except Err α) >>= f) = f a := rfl

theorem errBind_err {α β : Type} (e : Err) (f : α → Except Err β) :
    ((Except.error e : Except Err α) >>= f) = .error e := rfl

theorem errPure {α : Type} (a : α) : (pure a : Except Err α) = .ok a := rfl

theorem fromBytesBE_cons_zero (m : List Nat) :
    fromBytesBE (0 :: m) = fromBytesBE m := by
  simp [fromBytesBE]

/-- The shape of a successful `writeinttlvasn1`: tag byte `2`, a length
field encoding the content length, then the content, which reads back
as `k` big-endian and is nonempty. -/
theorem writeinttlv_shape {k : Nat} {tlv : List Nat}
    (hw : writeinttlvasn1 (k : Int) = .ok tlv) :
    ∃ lenB content,
      tlv = 2 :: (lenB ++ content) ∧
      writelengthasn1 content.length = .ok lenB ∧
      fromBytesBE content = k ∧ 1 ≤ content.length ∧ 1 ≤ lenB.length := by
  obtain ⟨bs, hbs, hval, hlen, _, _⟩ :=
    to_bytes_spec.1 (k : Int) (by positivity)
  have hbs1 : 1 ≤ bs.length := by omega
  unfold writeinttlvasn1 at hw
  rw [if_neg (by omega : ¬(k : Int) < 0), hbs, errBind_ok] at hw
  by_cases hhead : bs.headD 0 ≥ 128
  · rw [if_pos hhead] at hw
    simp only at hw
    cases hwl : writelengthasn1 (bs.length + 1) with
    | error e => rw [hwl, errBind_err] at hw; exact Except.noConfusion hw
    | ok lenB =>
      rw [hwl, errBind_ok] at hw
      refine ⟨lenB, 0 :: bs, ?_, ?_, ?_, by simp, ?_⟩
      · have := hw
        injection this with h
        rw [← h]
        simp
      · simpa using hwl
      · rw [fromBytesBE_cons_zero]
        exact_mod_cast hval
      · by_contra hc
        have : lenB = [] := by
          cases lenB with
          | nil => rfl
          | cons a l => simp at hc
        subst this
        unfold writelengthasn1 at hwl
        by_cases h8 : bs.length + 1 < 128
        · rw [if_pos h8] at hwl
          exact List.noConfusion (Except.ok.inj hwl)
        · rw [if_neg h8] at hwl
          obtain ⟨tb, htb, _, _, _, _⟩ :=
            to_bytes_spec.1 ((bs.length + 1 : Nat) : Int) (by positivity)
          rw [htb, errBind_ok] at hwl
          by_cases hbig : 128 ||| tb.length > 255
          · rw [if_pos hbig] at hwl; exact Except.noConfusion hwl
          · rw [if_neg hbig] at hwl
            exact List.noConfusion (Except.ok.inj hwl)
  · rw [if_neg hhead] at hw
    simp only at hw
    cases hwl : writelengthasn1 bs.length with
    | error e => rw [hwl, errBind_err] at hw; exact Except.noConfusion hw
    | ok lenB =>
      rw [hwl, errBind_ok] at hw
      refine ⟨lenB, bs, ?_, hwl, by exact_mod_cast hval, hbs1, ?_⟩
      · have := hw
        injection this with h
        rw [← h]
        simp
      · by_contra hc
        have : lenB = [] := by
          cases lenB with
          | nil => rfl
          | cons a l => simp at hc
        subst this
        unfold writelengthasn1 at hwl
        by_cases h8 : bs.length < 128
        · rw [if_pos h8] at hwl
          exact List.noConfusion (Except.ok.inj hwl)
        · rw [if_neg h8] at hwl
          obtain ⟨tb, htb, _, _, _, _⟩ :=
            to_bytes_spec.1 ((bs.length : Nat) : Int) (by positivity)
          rw [htb, errBind_ok] at hwl
          by_cases hbig : 128 ||| tb.length > 255
          · rw [if_pos hbig] at hwl; exact Except.noConfusion hwl
          · rw [if_neg hbig] at hwl
            exact List.noConfusion (Except.ok.inj hwl)

theorem errMap_ok {α β : Type} (a : α) (f : α → β) :
    (Except.ok a : Except Err α).map f = .ok (f a) := rfl

/-- The two shapes of a successful `writelengthasn1` on a length below
`2^(8*127)`: the short form, or the long form with at most 127 length
bytes (so that the marker byte does not collide with the count). -/
theorem writelength_shape {L : Nat} {lenB : List Nat}
    (hw : writelengthasn1 L = .ok lenB) (hL : L < 2 ^ 1016) :
    (L < 128 ∧ lenB = [L]) ∨
    (128 ≤ L ∧ ∃ tb, lenB = (128 ||| tb.length) :: tb ∧
      fromBytesBE tb = L ∧ 1 ≤ tb.length ∧ tb.length ≤ 127) := by
  unfold writelengthasn1 at hw
  by_cases h8 : L < 128
  · rw [if_pos h8] at hw
    exact Or.inl ⟨h8, (Except.ok.inj hw).symm⟩
  · rw [if_neg h8] at hw
    refine Or.inr ⟨by omega, ?_⟩
    obtain ⟨tb, htb, hval, hlen, _, _⟩ :=
      to_bytes_spec.1 ((L : Nat) : Int) (Int.natCast_nonneg L)
    rw [htb, errBind_ok] at hw
    have hsize : Nat.size L ≤ 1016 := Nat.size_le.mpr hL
    have hu : tb.length ≤ 127 := by
      rw [hlen]
      simp at hsize ⊢
      omega
    have hu1 : 1 ≤ tb.length := by rw [hlen]; omega
    rw [if_neg (by rw [or128_eq_add (by omega)]; omega :
      ¬128 ||| tb.length > 255)] at hw
    refine ⟨tb, (Except.ok.inj hw).symm, ?_, hu1, hu⟩
    exact_mod_cast hval

theorem readIntTLV {k : Nat} {tlv : List Nat} (pre post : List Nat)
    (fuel : Nat) (hw : writeinttlvasn1 (k : Int) = .ok tlv)
    (hsmall : tlv.length ≤ 2 ^ 1016) (size : Nat)
    (hsz : pre.length + tlv.length ≤ size) :
    readtlvasn1F (fuel + 1) (pre ++ tlv ++ post) pre.length size =
      .ok (.int k, pre.length + tlv.length) := by
  obtain ⟨lenB, content, htlv, hlen, hval, hc1, hlb1⟩ := writeinttlv_shape hw
  subst htlv
  have hlentlv : (2 :: (lenB ++ content)).length =
      1 + lenB.length + content.length := by simp; omega
  have hcs : content.length < 2 ^ 1016 := by omega
  rcases writelength_shape hlen hcs with ⟨hL, hlenB⟩ |
    ⟨hL, tb, hlenB, htbval, htb1, htb127⟩
  · subst hlenB
    have ht : (pre ++ (2 :: ([content.length] ++ content)) ++ post)[pre.length]? =
        some 2 := by
      have := getElem?_middle pre (2 :: ([content.length] ++ content)) post 0
        (by simp)
      simpa using this
    have hl0 : (pre ++ (2 :: ([content.length] ++ content)) ++ post)[pre.length + 1]? =
        some content.length := by
      have := getElem?_middle pre (2 :: ([content.length] ++ content)) post 1
        (by simp)
      simpa using this
    have hsplit : pre ++ (2 :: ([content.length] ++ content)) ++ post =
        (pre ++ [2, content.length]) ++ content ++ post := by simp
    have hric : readintvasn1
        (pre ++ (2 :: ([content.length] ++ content)) ++ post)
        (pre.length + 2) (pre.length + 2 + content.length) =
        .ok (k, pre.length + 2 + content.length) := by
      rw [hsplit]
      unfold readintvasn1
      rw [show pre.length + 2 + content.length - (pre.length + 2) =
        content.length by omega]
      have hwin := beAccum_window content (pre ++ [2, content.length]) post 0
      rw [show (pre ++ [2, content.length]).length = pre.length + 2 by simp]
        at hwin
      rw [hwin, errMap_ok]
      have hof : content.foldl (fun acc b => (acc <<< 8) ||| b) 0 = k := hval
      rw [hof]
    simp only [readtlvasn1F]
    rw [if_neg (show ¬ pre.length + 1 ≥ size by simp at hsz; omega)]
    simp only [ht, hl0, and128_eq_zero hL, ne_eq, not_true_eq_false,
      errPure, errBind_ok, hric]
    norm_num
    simp at hsz ⊢
    omega
  · subst hlenB
    have hu128 : tb.length < 128 := by omega
    have ht : (pre ++ (2 :: (((128 ||| tb.length) :: tb) ++ content)) ++
        post)[pre.length]? = some 2 := by
      have := getElem?_middle pre
        (2 :: (((128 ||| tb.length) :: tb) ++ content)) post 0 (by simp)
      simpa using this
    have hl0 : (pre ++ (2 :: (((128 ||| tb.length) :: tb) ++ content)) ++
        post)[pre.length + 1]? = some (128 ||| tb.length) := by
      have := getElem?_middle pre
        (2 :: (((128 ||| tb.length) :: tb) ++ content)) post 1 (by simp)
      simpa using this
    have hsplit1 : pre ++ (2 :: (((128 ||| tb.length) :: tb) ++ content)) ++
        post = (pre ++ [2, 128 ||| tb.length]) ++ tb ++ (content ++ post) := by
      simp
    have hacc : beAccum
        (pre ++ (2 :: (((128 ||| tb.length) :: tb) ++ content)) ++ post)
        0 (pre.length + 2) tb.length =
        .ok (content.length, pre.length + 2 + tb.length) := by
      rw [hsplit1]
      have hwin := beAccum_window tb (pre ++ [2, 128 ||| tb.length])
        (content ++ post) 0
      rw [show (pre ++ [2, 128 ||| tb.length]).length = pre.length + 2
        by simp] at hwin
      rw [hwin]
      have hof : tb.foldl (fun acc b => (acc <<< 8) ||| b) 0 =
        content.length := htbval
      rw [hof]
    have hsplit2 : pre ++ (2 :: (((128 ||| tb.length) :: tb) ++ content)) ++
        post = (pre ++ [2, 128 ||| tb.length] ++ tb) ++ content ++ post := by
      simp
    have hric : readintvasn1
        (pre ++ (2 :: (((128 ||| tb.length) :: tb) ++ content)) ++ post)
        (pre.length + 2 + tb.length)
        (pre.length + 2 + tb.length + content.length) =
        .ok (k, pre.length + 2 + tb.length + content.length) := by
      rw [hsplit2]
      unfold readintvasn1
      rw [show pre.length + 2 + tb.length + content.length -
        (pre.length + 2 + tb.length) = content.length by omega]
      have hwin := beAccum_window content (pre ++ [2, 128 ||| tb.length] ++ tb)
        post 0
      rw [show (pre ++ [2, 128 ||| tb.length] ++ tb).length =
        pre.length + 2 + tb.length by simp; omega] at hwin
      rw [hwin, errMap_ok]
      have hof : content.foldl (fun acc b => (acc <<< 8) ||| b) 0 = k := hval
      rw [hof]
    simp only [readtlvasn1F]
    rw [if_neg (show ¬ pre.length + 1 ≥ size by simp at hsz; omega)]
    simp only [ht, hl0, ne_eq, or128_and_high hu128, not_false_eq_true,
      if_true, ite_true, or128_and_low hu128]
    rw [if_neg (show ¬ pre.length + 2 + tb.length ≥ size by
      simp at hsz; omega)]
    simp only [hacc, errBind_ok, hric]
    norm_num
    simp at hsz ⊢
    omega

/-- The Python list of `int`s corresponding to a list of nonnegative
integers `ks`, as writer input. -/
def intItems (ks : List Nat) : List PySeqItem :=
  ks.map (fun n : Nat => PySeqItem.int (n : Int))

/-- Each integer TLV is at least 3 bytes, so a body of `n` integers is
at least `3n` bytes. -/
theorem writeseqbody_length :
    ∀ (ks : List Nat) (body : List Nat),
      writeseqbody (intItems ks) = .ok body →
      3 * ks.length ≤ body.length := by
  intro ks
  induction ks with
  | nil =>
    intro body hb
    simp only [intItems, List.map] at hb
    rw [writeseqbody] at hb
    have hb' := Except.ok.inj hb
    subst hb'
    simp
  | cons k rest ih =>
    intro body hb
    simp only [intItems, List.map] at hb
    rw [writeseqbody] at hb
    rw [show List.map (fun n : Nat => PySeqItem.int (n : Int)) rest =
      intItems rest from rfl] at hb
    cases hw : writeinttlvasn1 ((k : Nat) : Int) with
    | error e => rw [hw, errBind_err] at hb; exact Except.noConfusion hb
    | ok tlv =>
      rw [hw, errBind_ok] at hb
      cases hr : writeseqbody (intItems rest) with
      | error e => rw [hr, errBind_err] at hb; exact Except.noConfusion hb
      | ok rbody =>
        rw [hr, errBind_ok] at hb
        have hb' : tlv ++ rbody = body := Except.ok.inj hb
        obtain ⟨lenB, content, htlv, _, _, hc1, hlb1⟩ := writeinttlv_shape hw
        have := ih rbody hr
        rw [← hb']
        simp [htlv]
        omega

/-- Parsing the concatenation of the integer TLVs of `ks`, laid out
after `pre` and before `post`, yields exactly the integers of `ks` and
stops at the end of the body. -/
theorem readSeqChildren :
    ∀ (ks : List Nat) (fuel : Nat) (pre post body : List Nat),
      writeseqbody (intItems ks) = .ok body →
      body.length ≤ 2 ^ 1016 →
      ks.length + 1 ≤ fuel →
      readSeqLoopF fuel (pre ++ body ++ post) pre.length
          (pre.length + body.length) =
        .ok (ks.map Asn1Val.int, pre.length + body.length) := by
  intro ks
  induction ks with
  | nil =>
    intro fuel pre post body hb _ hfuel
    simp only [intItems, List.map] at hb
    rw [writeseqbody] at hb
    have hb' := Except.ok.inj hb
    subst hb'
    obtain ⟨f, rfl⟩ : ∃ f, fuel = f + 1 := ⟨fuel - 1, by omega⟩
    rw [readSeqLoopF]
    simp
  | cons k rest ih =>
    intro fuel pre post body hb hsmall hfuel
    simp only [intItems, List.map] at hb
    rw [writeseqbody] at hb
    rw [show List.map (fun n : Nat => PySeqItem.int (n : Int)) rest =
      intItems rest from rfl] at hb
    cases hw : writeinttlvasn1 ((k : Nat) : Int) with
    | error e => rw [hw, errBind_err] at hb; exact Except.noConfusion hb
    | ok tlv =>
      rw [hw, errBind_ok] at hb
      cases hr : writeseqbody (intItems rest) with
      | error e => rw [hr, errBind_err] at hb; exact Except.noConfusion hb
      | ok rbody =>
        rw [hr, errBind_ok] at hb
        have hb' : tlv ++ rbody = body := Except.ok.inj hb
        subst hb'
        obtain ⟨lenB, content, htlv, _, _, hc1, hlb1⟩ := writeinttlv_shape hw
        have htlv3 : 3 ≤ tlv.length := by simp [htlv]; omega
        have hfl : (k :: rest).length = rest.length + 1 := by simp
        obtain ⟨f, rfl⟩ : ∃ f, fuel = f + 1 := ⟨fuel - 1, by omega⟩
        obtain ⟨f', rfl⟩ : ∃ f', f = f' + 1 := ⟨f - 1, by omega⟩
        simp only [List.append_assoc, List.length_append, ← Nat.add_assoc]
        rw [readSeqLoopF]
        rw [if_pos (by omega :
          pre.length < pre.length + tlv.length + rbody.length)]
        have hchild := readIntTLV pre (rbody ++ post) f' hw
          (by simp at hsmall; omega)
          (pre.length + tlv.length + rbody.length) (by omega)
        simp only [List.append_assoc] at hchild
        simp only [hchild, errBind_ok]
        have hrec := ih (f' + 1) (pre ++ tlv) post rbody hr
          (by simp at hsmall; omega) (by omega)
        simp only [List.append_assoc, List.length_append, ← Nat.add_assoc]
          at hrec
        simp only [hrec, errBind_ok]
        simp

theorem writelength_ok {L : Nat} (hL : L < 2 ^ 1016) :
    ∃ lenB, writelengthasn1 L = .ok lenB := by
  unfold writelengthasn1
  by_cases h8 : L < 128
  · exact ⟨[L], by rw [if_pos h8]⟩
  · rw [if_neg h8]
    obtain ⟨tb, htb, hval, hlen, _, _⟩ :=
      to_bytes_spec.1 ((L : Nat) : Int) (Int.natCast_nonneg L)
    rw [htb, errBind_ok]
    have hsize : Nat.size L ≤ 1016 := Nat.size_le.mpr hL
    have hu : tb.length ≤ 127 := by
      rw [hlen]
      simp at hsize ⊢
      omega
    rw [if_neg (by rw [or128_eq_add (by omega)]; omega :
      ¬128 ||| tb.length > 255)]
    exact ⟨_, rfl⟩

/-- Parsing the serialized form of a sequence of nonnegative integers
recovers exactly the integers, provided the encoded body is shorter
than `2^(8*127)` bytes. -/
theorem readtlv_of_write {K : List Nat} {body out : List Nat}
    (hbody : writeseqbody (intItems K) = .ok body)
    (hsmall : body.length < 2 ^ 1016)
    (hw : writeseqtlvasn1 (intItems K) = .ok out) :
    readtlvasn1 out 0 out.length =
      .ok (.list (K.map Asn1Val.int), out.length) := by
  rw [writeseqtlvasn1, hbody, errBind_ok] at hw
  cases hwl : writelengthasn1 body.length with
  | error e => rw [hwl, errBind_err] at hw; exact Except.noConfusion hw
  | ok lenB =>
    rw [hwl, errBind_ok] at hw
    have hout : out = 48 :: (lenB ++ body) := (Except.ok.inj hw).symm
    subst hout
    have hbK := writeseqbody_length K body hbody
    rcases writelength_shape hwl hsmall with ⟨hL, hlenB⟩ |
      ⟨hL, tb, hlenB, htbval, htb1, htb127⟩
    · subst hlenB
      have hform : (48 : Nat) :: ([body.length] ++ body) =
          48 :: body.length :: body := rfl
      rw [hform]
      have hlen2 : ((48 : Nat) :: body.length :: body).length =
          2 + body.length := by simp; omega
      unfold readtlvasn1
      rw [hlen2]
      rw [readtlvasn1F]
      rw [if_neg (by omega : ¬ 0 + 1 ≥ 2 + body.length)]
      have ht : ((48 : Nat) :: body.length :: body)[0]? = some 48 := by simp
      have hl0 : ((48 : Nat) :: body.length :: body)[1]? =
          some body.length := by simp
      simp only [ht, hl0, and128_eq_zero hL, ne_eq, not_true_eq_false,
        errPure, errBind_ok]
      norm_num
      have hSC := readSeqChildren K (2 + body.length) [48, body.length] []
        body hbody (le_of_lt hsmall) (by omega)
      simp only [List.append_nil, List.length_cons, List.length_nil] at hSC
      have hoct : ([48, body.length] : List Nat) ++ body =
          48 :: body.length :: body := rfl
      rw [hoct] at hSC
      rw [show (0 : Nat) + 1 + 1 = 2 by norm_num] at hSC
      simp only [hSC, errBind_ok]
      simp
    · subst hlenB
      have hu128 : tb.length < 128 := by omega
      have hform : (48 : Nat) :: (((128 ||| tb.length) :: tb) ++ body) =
          [48, 128 ||| tb.length] ++ tb ++ body := by simp
      rw [hform]
      have hlen2 : (([48, 128 ||| tb.length] ++ tb ++ body) : List Nat).length =
          2 + tb.length + body.length := by simp; omega
      unfold readtlvasn1
      rw [hlen2]
      rw [readtlvasn1F]
      rw [if_neg (by omega : ¬ 0 + 1 ≥ 2 + tb.length + body.length)]
      have ht0 : (([48, 128 ||| tb.length] ++ tb ++ body) :
          List Nat)[0]? = some 48 := by
        simp [List.cons_append]
      have hl1 : (([48, 128 ||| tb.length] ++ tb ++ body) :
          List Nat)[1]? = some (128 ||| tb.length) := by
        simp [List.cons_append]
      simp only [ht0, hl1, ne_eq, or128_and_high hu128, not_false_eq_true,
        ite_true, or128_and_low hu128, Nat.zero_add]
      rw [if_neg (by omega :
        ¬ 2 + tb.length ≥ 2 + tb.length + body.length)]
      have hacc : beAccum ([48, 128 ||| tb.length] ++ tb ++ body) 0 2
          tb.length = .ok (body.length, 2 + tb.length) := by
        have hwin := beAccum_window tb [48, 128 ||| tb.length] body 0
        rw [show ([48, 128 ||| tb.length] : List Nat).length = 2
          by simp] at hwin
        rw [hwin]
        have hof : tb.foldl (fun acc b => (acc <<< 8) ||| b) 0 =
          body.length := htbval
        rw [hof]
      simp only [hacc, errBind_ok]
      have hSC := readSeqChildren K (2 + tb.length + body.length)
        ([48, 128 ||| tb.length] ++ tb) [] body hbody (le_of_lt hsmall)
        (by omega)
      simp only [List.append_nil, List.append_assoc, List.length_append,
        List.length_cons, List.length_nil] at hSC
      simp only [List.append_assoc]
      rw [show (0 : Nat) + 1 + 1 + tb.length = 2 + tb.length by omega] at hSC
      rw [show (2 : Nat) + tb.length + body.length =
        2 + tb.length + body.length from rfl] at hSC
      simp only [hSC, errBind_ok]
      simp

theorem natToBytesLE_pow256 :
    ∀ (k fuel : Nat), k < fuel →
      natToBytesLE fuel (256 ^ k) = List.replicate k 0 ++ [1] := by
  intro k
  induction k with
  | zero =>
    intro fuel hf
    obtain ⟨f, rfl⟩ : ∃ f, fuel = f + 1 := ⟨fuel - 1, by omega⟩
    rw [natToBytesLE]
    norm_num
    cases f with
    | zero => rfl
    | succ f' =>
      rw [natToBytesLE]
      norm_num [Nat.shiftRight_eq_div_pow]
  | succ k ih =>
    intro fuel hf
    obtain ⟨f, rfl⟩ : ∃ f, fuel = f + 1 := ⟨fuel - 1, by omega⟩
    rw [natToBytesLE]
    rw [if_neg (by positivity : ¬256 ^ (k + 1) = 0)]
    have h1 : 256 ^ (k + 1) &&& 255 = 0 := by
      have hm := Nat.and_pow_two_sub_one_eq_mod (256 ^ (k + 1)) 8
      norm_num at hm
      rw [hm, pow_succ]
      simp [Nat.mul_mod]
    have h2 : 256 ^ (k + 1) >>> 8 = 256 ^ k := by
      rw [Nat.shiftRight_eq_div_pow]
      norm_num
      rw [pow_succ]
      exact Nat.mul_div_cancel _ (by norm_num)
    rw [h1, h2, ih f (by omega)]
    rw [List.replicate_succ]
    rfl

/-- The nine-integer input whose encoding breaks the writer's length
field: the last integer occupies `2^1016 - 100` content bytes, so the
sequence body needs 128 length bytes and `0x80 | 128` collides. -/
def asn1CexInput : List Nat :=
  [0, 0, 0, 0, 0, 0, 0, 0, 256 ^ (2 ^ 1016 - 101)]

/-- Serialize a sequence and parse the result over its full extent. -/
def roundTripAsn1 (seq : List PySeqItem) : Except Err (Asn1Val × Nat) := do
  let out ← writeseqtlvasn1 seq
  readtlvasn1 out 0 out.length

theorem pow1015_le : (128 : Nat) ≤ 2 ^ 1015 := by
  calc (128 : Nat) = 2 ^ 7 := by norm_num
  _ ≤ 2 ^ 1015 := Nat.pow_le_pow_right (by norm_num) (by norm_num)

theorem pow1016_eq : (2 : Nat) ^ 1016 = 2 * 2 ^ 1015 := by
  rw [← pow_succ']

theorem to_bytes_bigcex :
    to_bytes ((256 ^ (2 ^ 1016 - 101) : Nat) : Int) =
      .ok (1 :: List.replicate (2 ^ 1016 - 101) 0) := by
  have hpos : (0 : Nat) < 256 ^ (2 ^ 1016 - 101) := pow_pos (by norm_num) _
  unfold to_bytes
  rw [if_neg ((Int.natCast_nonneg _).not_lt :
    ¬((256 ^ (2 ^ 1016 - 101) : Nat) : Int) < 0)]
  rw [if_neg (by exact_mod_cast hpos.ne' :
    ¬((256 ^ (2 ^ 1016 - 101) : Nat) : Int) = 0)]
  rw [show ((256 ^ (2 ^ 1016 - 101) : Nat) : Int).toNat =
    256 ^ (2 ^ 1016 - 101) from Int.toNat_natCast _]
  rw [natToBytesLE_pow256 _ _ (n_lt_256_pow _)]
  simp

theorem writeinttlv_bigcex :
    ∃ tbM, writeinttlvasn1 ((256 ^ (2 ^ 1016 - 101) : Nat) : Int) =
        .ok (2 :: ((255 :: tbM) ++ (1 :: List.replicate (2 ^ 1016 - 101) 0))) ∧
      tbM.length = 127 := by
  have hA := pow1016_eq
  have hB := pow1015_le
  unfold writeinttlvasn1
  rw [if_neg ((Int.natCast_nonneg _).not_lt :
    ¬((256 ^ (2 ^ 1016 - 101) : Nat) : Int) < 0)]
  rw [to_bytes_bigcex, errBind_ok]
  simp only [List.headD_cons]
  rw [if_neg (by norm_num : ¬(1 : Nat) ≥ 128)]
  have hlenc : (1 :: List.replicate (2 ^ 1016 - 101) 0).length =
      2 ^ 1016 - 100 := by
    rw [List.length_cons, List.length_replicate]
    omega
  rw [hlenc]
  unfold writelengthasn1
  rw [if_neg (by omega : ¬2 ^ 1016 - 100 < 128)]
  obtain ⟨tbM, htbM, _, hlen, _, _⟩ :=
    to_bytes_spec.1 ((2 ^ 1016 - 100 : Nat) : Int) (Int.natCast_nonneg _)
  have hsz : Nat.size (2 ^ 1016 - 100) = 1016 := by
    have h1 : Nat.size (2 ^ 1016 - 100) ≤ 1016 :=
      Nat.size_le.mpr (by omega)
    have h2 : 1015 < Nat.size (2 ^ 1016 - 100) :=
      Nat.lt_size.mpr (by omega)
    omega
  have htlen : tbM.length = 127 := by
    rw [hlen]
    rw [show ((2 ^ 1016 - 100 : Nat) : Int).toNat = 2 ^ 1016 - 100 from
      Int.toNat_natCast _]
    rw [hsz]
    omega
  rw [htbM, errBind_ok, htlen]
  rw [show (128 ||| 127 : Nat) = 255 from by decide]
  rw [if_neg (by norm_num : ¬(255 : Nat) > 255)]
  exact ⟨tbM, rfl, htlen⟩

theorem writeseqbody_bigcex :
    ∃ body : List Nat, writeseqbody (intItems asn1CexInput) = .ok body ∧
      body.length = 2 ^ 1016 + 53 := by
  obtain ⟨tbM, hw, htlen⟩ := writeinttlv_bigcex
  have h0 : writeinttlvasn1 ((0 : Nat) : Int) = .ok [2, 1, 0] := by decide
  have hnil : writeseqbody [] = .ok [] := by rw [writeseqbody]
  have h9 : writeseqbody (intItems [256 ^ (2 ^ 1016 - 101)]) =
      .ok (2 :: ((255 :: tbM) ++ (1 :: List.replicate (2 ^ 1016 - 101) 0))) := by
    rw [show intItems [256 ^ (2 ^ 1016 - 101)] =
      [PySeqItem.int ((256 ^ (2 ^ 1016 - 101) : Nat) : Int)] from rfl]
    rw [writeseqbody, hw, errBind_ok, hnil, errBind_ok, List.append_nil]
  have hcons : ∀ (rest : List Nat) (b : List Nat),
      writeseqbody (intItems rest) = .ok b →
      writeseqbody (intItems (0 :: rest)) = .ok (2 :: 1 :: 0 :: b) := by
    intro rest b hb
    rw [show intItems (0 :: rest) =
      PySeqItem.int ((0 : Nat) : Int) :: intItems rest from rfl]
    rw [writeseqbody, h0, errBind_ok, hb, errBind_ok]
    rfl
  have h8 := hcons _ _ h9
  have h7 := hcons _ _ h8
  have h6 := hcons _ _ h7
  have h5 := hcons _ _ h6
  have h4 := hcons _ _ h5
  have h3 := hcons _ _ h4
  have h2 := hcons _ _ h3
  have h1 := hcons _ _ h2
  rw [show asn1CexInput =
    0 :: 0 :: 0 :: 0 :: 0 :: 0 :: 0 :: 0 :: [256 ^ (2 ^ 1016 - 101)]
    from rfl]
  refine ⟨_, h1, ?_⟩
  repeat rw [List.length_cons]
  rw [List.length_append]
  repeat rw [List.length_cons]
  rw [List.length_replicate, htlen]
  omega

theorem writelength_bigcex :
    ∃ o128, writelengthasn1 (2 ^ 1016 + 53) = .ok (128 :: o128) ∧
      o128.length = 128 := by
  unfold writelengthasn1
  rw [if_neg (by omega : ¬ 2 ^ 1016 + 53 < 128)]
  obtain ⟨o128, ho, _, hlen, _, _⟩ :=
    to_bytes_spec.1 ((2 ^ 1016 + 53 : Nat) : Int) (Int.natCast_nonneg _)
  have hsz : Nat.size (2 ^ 1016 + 53) = 1017 := by
    have h1 : Nat.size (2 ^ 1016 + 53) ≤ 1017 :=
      Nat.size_le.mpr (by omega)
    have h2 : 1016 < Nat.size (2 ^ 1016 + 53) :=
      Nat.lt_size.mpr (by omega)
    omega
  have holen : o128.length = 128 := by
    rw [hlen, Int.toNat_natCast, hsz]
    omega
  rw [ho, errBind_ok, holen]
  rw [show (128 ||| 128 : Nat) = 128 from by decide]
  rw [if_neg (by norm_num : ¬(128 : Nat) > 255)]
  exact ⟨o128, rfl, holen⟩

theorem readSeqLoopF_stop (fuel : Nat) (octets : List Nat) (o : Nat)
    (hf : 1 ≤ fuel) : readSeqLoopF fuel octets o o = .ok ([], o) := by
  obtain ⟨f, rfl⟩ : ∃ f, fuel = f + 1 := ⟨fuel - 1, by omega⟩
  rw [readSeqLoopF]
  rw [if_neg (lt_irrefl o)]

theorem asn1_roundtrip_cexA :
    roundTripAsn1 (intItems asn1CexInput) = .ok (.list [], 2) := by
  obtain ⟨body, hbody, hblen⟩ := writeseqbody_bigcex
  obtain ⟨o128, hwl, holen⟩ := writelength_bigcex
  have hw : writeseqtlvasn1 (intItems asn1CexInput) =
      .ok (48 :: ((128 :: o128) ++ body)) := by
    rw [writeseqtlvasn1, hbody, errBind_ok, hblen, hwl, errBind_ok]
  unfold roundTripAsn1
  rw [hw, errBind_ok]
  have hlen2 : ((48 : Nat) :: ((128 :: o128) ++ body)).length =
      2 ^ 1016 + 183 := by
    simp only [List.length_cons, List.length_append, holen, hblen]
    omega
  unfold readtlvasn1
  rw [hlen2, readtlvasn1F]
  rw [if_neg (by omega : ¬ 0 + 1 ≥ 2 ^ 1016 + 183)]
  have ht0 : ((48 : Nat) :: ((128 :: o128) ++ body))[0]? = some 48 := rfl
  have hl1 : ((48 : Nat) :: ((128 :: o128) ++ body))[1]? = some 128 := by
    simp
  simp only [ht0, hl1, ne_eq, Nat.zero_add]
  rw [if_pos (by decide : ¬ (128 : Nat) &&& 128 = 0)]
  rw [show (128 &&& 127 : Nat) = 0 from by decide]
  rw [if_neg (by omega : ¬ (2 + 0 : Nat) ≥ 2 ^ 1016 + 183)]
  rw [show beAccum ((48 : Nat) :: ((128 :: o128) ++ body)) 0 2 0 =
    .ok (0, 2) from rfl]
  rw [errBind_ok]
  rw [if_pos trivial]
  dsimp only
  simp only [Nat.add_zero]
  rw [readSeqLoopF_stop (2 ^ 1016 + 183) _ 2 (by omega)]
  rw [errBind_ok]
  simp

/-! ## The claims -/

/-- C1: corrected.  For nonnegative `n` and `e`, a divisor `p ≥ 2` of
`n` with `n ≠ p`, and the four coprimality conditions, `mkprivkey n e p`
returns the nine integers `[0, n, e, d, p, q, dp, dq, qinv]` with each
inverse correct and reduced modulo its modulus; for any `p ≠ 0` that
does not divide `n` it fails with `PrimeMismatch`; and
`mkprivkey 3233 17 61` is the textbook RSA vector.  (The original
claim, quantified over all integers, fails: see the counterexample.) -/
theorem C1_mkprivkey :
    (∀ n e p : Int, 0 ≤ n → 0 ≤ e → 2 ≤ p → p ∣ n → n ≠ p →
      Int.gcd e ((p - 1) * (n.fdiv p - 1)) = 1 →
      Int.gcd e (p - 1) = 1 →
      Int.gcd e (n.fdiv p - 1) = 1 →
      Int.gcd (n.fdiv p) p = 1 →
      ∃ d dp dq qinv,
        mkprivkey n e p = .ok [0, n, e, d, p, n.fdiv p, dp, dq, qinv] ∧
        p * n.fdiv p = n ∧
        ((p - 1) * (n.fdiv p - 1)) ∣ (e * d - 1) ∧
          0 ≤ d ∧ d < (p - 1) * (n.fdiv p - 1) ∧
        (p - 1) ∣ (e * dp - 1) ∧ 0 ≤ dp ∧ dp < p - 1 ∧
        (n.fdiv p - 1) ∣ (e * dq - 1) ∧ 0 ≤ dq ∧ dq < n.fdiv p - 1 ∧
        p ∣ (n.fdiv p * qinv - 1) ∧ 0 ≤ qinv ∧ qinv < p) ∧
    (∀ n e p : Int, p ≠ 0 → ¬(p ∣ n) →
      mkprivkey n e p = .error .PrimeMismatch) ∧
    mkprivkey 3233 17 61 = .ok [0, 3233, 17, 2753, 61, 53, 53, 49, 38] := by
  refine ⟨?_, ?_, by decide⟩
  · intro n e p hn he hp hdvd hnp h1 h2 h3 h4
    exact mkprivkey_spec hn he hp hdvd hnp h1 h2 h3 h4
  · intro n e p hp hdvd
    unfold mkprivkey
    rw [if_neg hp]
    have hr : ¬n.fmod p = 0 := by
      intro h0
      refine hdvd ⟨n.fdiv p, ?_⟩
      have hh := Int.fmod_add_fdiv n p
      rw [h0] at hh
      linarith
    rw [if_pos hr]

/-- C1 witness: the theorem applied at the textbook triple
`(3233, 17, 61)` and, for the mismatch clause, at `(5, 1, 3)`. -/
theorem C1_mkprivkey_witness :
    (∃ d dp dq qinv, mkprivkey 3233 17 61 =
      .ok [0, 3233, 17, d, 61, (3233 : Int).fdiv 61, dp, dq, qinv]) ∧
    mkprivkey 5 1 3 = .error .PrimeMismatch := by
  constructor
  · obtain ⟨d, dp, dq, qinv, h, _⟩ :=
      C1_mkprivkey.1 3233 17 61 (by decide) (by decide) (by decide)
        (by omega) (by decide) (by decide) (by decide) (by decide) (by decide)
    exact ⟨d, dp, dq, qinv, h⟩
  · exact C1_mkprivkey.2.1 5 1 3 (by decide) (by omega)

/-- C1 counterexample to the original quantification: with `n = p` the
totient is zero and the result is `ZeroDivision`, not a key list; with
`p = 0` a non-divisor gives `ZeroDivision`, not `PrimeMismatch`; with a
negative `e` or `n` the returned inverses fail their congruences. -/
theorem C1_counterexample :
    mkprivkey 2 1 2 = .error .ZeroDivision ∧
    mkprivkey 5 1 0 = .error .ZeroDivision ∧
    mkprivkey 5 1 0 ≠ .error .PrimeMismatch ∧
    mkprivkey 3233 (-7) 61 = .ok [0, 3233, -7, 1783, 61, 53, 43, 15, 38] ∧
    ((-7 : Int) * 1783).fmod 3120 ≠ 1 ∧
    mkprivkey (-3233) 17 61 =
      .ok [0, -3233, 17, -2287, 61, -53, 53, -19, 38] ∧
    ((-53 : Int) * 38).fmod 61 ≠ 1 := by
  decide

/-- C2: confirmed.  SplitXor is an involution: with both pads long
enough, the forward loop clears the payload and produces an output
whose reverse run (same pads and offsets) reproduces the payload. -/
theorem C2_splitxor_involution (H x1 x2 : List Nat) (o1 o2 : Nat)
    (h1 : o1 + H.length ≤ x1.length) (h2 : o2 + H.length ≤ x2.length) :
    ∃ Y, convertXorRun H x1 x2 o1 o2 =
        (List.replicate H.length 0, Y, none) ∧
      Y.length = H.length ∧
      revertXorRun Y x1 x2 o1 o2 = (List.replicate H.length 0, H, none) :=
  splitxor_involution H x1 x2 o1 o2 h1 h2

/-- C2 witness: the involution at the payload `ab cd 12 34` with an
all-`ff` pad at offset 2 and an all-zero pad at offset 1. -/
theorem C2_splitxor_involution_witness :
    2 + ([171, 205, 18, 52] : List Nat).length ≤
      (List.replicate 8 255 : List Nat).length ∧
    1 + ([171, 205, 18, 52] : List Nat).length ≤
      (List.replicate 8 0 : List Nat).length ∧
    ∃ Y, convertXorRun [171, 205, 18, 52] (List.replicate 8 255)
        (List.replicate 8 0) 2 1 =
        (List.replicate ([171, 205, 18, 52] : List Nat).length 0, Y, none) ∧
      Y.length = ([171, 205, 18, 52] : List Nat).length ∧
      revertXorRun Y (List.replicate 8 255) (List.replicate 8 0) 2 1 =
        (List.replicate ([171, 205, 18, 52] : List Nat).length 0,
          [171, 205, 18, 52], none) :=
  ⟨by decide, by decide,
    C2_splitxor_involution [171, 205, 18, 52] (List.replicate 8 255)
      (List.replicate 8 0) 2 1 (by decide) (by decide)⟩

/-- C3: code bug.  The forward pipeline hex-decodes an all-ASCII pad
file (the four characters "00ff" become the two bytes `00 ff`), but the
reverse pipeline keeps the same file verbatim, so the two directions
disagree on the effective pad, against the spec's unified forward-path
rule. -/
theorem C3_pad_detection_divergence :
    loadPadForward [48, 48, 102, 102] = .ok [0, 255] ∧
    loadPadReverse [48, 48, 102, 102] = .ok [48, 48, 102, 102] ∧
    loadPadForward [48, 48, 102, 102] ≠ loadPadReverse [48, 48, 102, 102] := by
  decide

/-- C4: code bug.  The zeroization contract fails in the source: on the
success path the XOR output buffer `outdata` is never cleared (it still
holds the XOR result `7` here), and on the failure path the pads are
left intact and the payload only partially cleared; the reverse tool
behaves the same way. -/
theorem C4_zeroization_violation :
    (convertTail [1] [2] [4] 0 0).failure = none ∧
    (convertTail [1] [2] [4] 0 0).outdata = [7] ∧
    (convertTail [1, 1] [7, 7] [5] 0 0).failure = some .IndexOutOfRange ∧
    (convertTail [1, 1] [7, 7] [5] 0 0).xordata1 = [7, 7] ∧
    (convertTail [1, 1] [7, 7] [5] 0 0).p1_bin = [0, 1] ∧
    (revertTail [1] [2] [4] 0 0).failure = none ∧
    (revertTail [1] [2] [4] 0 0).outdata = [7] ∧
    (revertTail [1, 1] [7, 7] [5] 0 0).xordata1 = [7, 7] := by
  decide

/-- C5: corrected.  The ASN.1 write/parse round trip holds for a
sequence of nine nonnegative integers provided the encoded body is
shorter than `2^1016` bytes (at least 128 length bytes make the long
length form collide with its `0x80` marker); under that bound the
writer succeeds and the reader returns exactly the nine integers and
the full output length. -/
theorem C5_asn1_roundtrip (K body : List Nat) (hK : K.length = 9)
    (hbody : writeseqbody (intItems K) = .ok body)
    (hsmall : body.length < 2 ^ 1016) :
    ∃ out, writeseqtlvasn1 (intItems K) = .ok out ∧
      readtlvasn1 out 0 out.length =
        .ok (.list (K.map Asn1Val.int), out.length) := by
  obtain ⟨lenB, hlB⟩ := writelength_ok hsmall
  have hw : writeseqtlvasn1 (intItems K) = .ok (48 :: (lenB ++ body)) := by
    rw [writeseqtlvasn1, hbody, errBind_ok, hlB, errBind_ok]
  exact ⟨48 :: (lenB ++ body), hw, readtlv_of_write hbody hsmall hw⟩

/-- The serialized body of nine zero integers: nine copies of the
INTEGER TLV `02 01 00`. -/
theorem writeseqbody_zeros9 :
    writeseqbody (intItems (List.replicate 9 0)) =
      .ok [2, 1, 0, 2, 1, 0, 2, 1, 0, 2, 1, 0, 2, 1, 0, 2, 1, 0, 2, 1, 0,
        2, 1, 0, 2, 1, 0] := by
  have h0 : writeinttlvasn1 ((0 : Nat) : Int) = .ok [2, 1, 0] := by decide
  have hcons : ∀ (rest : List Nat) (b : List Nat),
      writeseqbody (intItems rest) = .ok b →
      writeseqbody (intItems (0 :: rest)) = .ok (2 :: 1 :: 0 :: b) := by
    intro rest b hb
    rw [show intItems (0 :: rest) =
      PySeqItem.int ((0 : Nat) : Int) :: intItems rest from rfl]
    rw [writeseqbody, h0, errBind_ok, hb, errBind_ok]
    rfl
  have he : writeseqbody (intItems ([] : List Nat)) = .ok [] := by
    rw [show intItems ([] : List Nat) = [] from rfl]
    rw [writeseqbody]
  have k1 := hcons _ _ he
  have k2 := hcons _ _ k1
  have k3 := hcons _ _ k2
  have k4 := hcons _ _ k3
  have k5 := hcons _ _ k4
  have k6 := hcons _ _ k5
  have k7 := hcons _ _ k6
  have k8 := hcons _ _ k7
  have k9 := hcons _ _ k8
  rw [show (List.replicate 9 0 : List Nat) =
    0 :: 0 :: 0 :: 0 :: 0 :: 0 :: 0 :: 0 :: 0 :: ([] : List Nat) from rfl]
  exact k9

/-- C5 witness: the round trip at the all-zero nine-integer key. -/
theorem C5_asn1_roundtrip_witness :
    (List.replicate 9 0 : List Nat).length = 9 ∧
    writeseqbody (intItems (List.replicate 9 0)) =
      .ok [2, 1, 0, 2, 1, 0, 2, 1, 0, 2, 1, 0, 2, 1, 0, 2, 1, 0, 2, 1, 0,
        2, 1, 0, 2, 1, 0] ∧
    ∃ out, writeseqtlvasn1 (intItems (List.replicate 9 0)) = .ok out ∧
      readtlvasn1 out 0 out.length =
        .ok (.list ((List.replicate 9 0 : List Nat).map Asn1Val.int),
          out.length) :=
  ⟨by decide, writeseqbody_zeros9,
    C5_asn1_roundtrip (List.replicate 9 0)
      [2, 1, 0, 2, 1, 0, 2, 1, 0, 2, 1, 0, 2, 1, 0, 2, 1, 0, 2, 1, 0,
        2, 1, 0, 2, 1, 0] (by decide) writeseqbody_zeros9 (by norm_num)⟩

/-- C5 counterexample to the unbounded claim: the nine-integer input
`asn1CexInput`, whose last element needs `2^1016 - 100` content bytes,
serializes with a length byte that collides with the long-form marker,
and parsing the serialized form returns the empty sequence ending at
offset 2 instead of the nine integers. -/
theorem C5_counterexample :
    roundTripAsn1 (intItems asn1CexInput) = .ok (.list [], 2) ∧
    asn1CexInput.length = 9 ∧
    Asn1Val.list [] ≠ .list (asn1CexInput.map Asn1Val.int) := by
  refine ⟨asn1_roundtrip_cexA, rfl, ?_⟩
  intro h
  rw [show asn1CexInput =
    0 :: 0 :: 0 :: 0 :: 0 :: 0 :: 0 :: 0 :: [256 ^ (2 ^ 1016 - 101)]
    from rfl] at h
  simp only [List.map_cons, Asn1Val.list.injEq] at h
  exact List.noConfusion h

/-- C6: corrected.  `powexp a k m` computes `a^k mod m` for `k ≥ 0` and
`m > 0` except at the edge case `k = 0, m = 1`, where the loop never
runs and the unreduced initial accumulator `1` is returned instead of
`0 = a^0 mod 1`; a negative exponent fails with `NegativeExponent`. -/
theorem C6_powexp :
    (∀ a k m : Int, 0 ≤ k → 0 < m → ¬(k = 0 ∧ m = 1) →
      powexp a k m = .ok ((a ^ k.toNat).fmod m)) ∧
    (∀ a : Int, powexp a 0 1 = .ok 1) ∧
    (∀ a k m : Int, k < 0 → powexp a k m = .error .NegativeExponent) :=
  powexp_correct

/-- C6 witness: `2^10 mod 1000 = 24` and the negative-exponent failure. -/
theorem C6_powexp_witness :
    (0 : Int) ≤ 10 ∧ (0 : Int) < 1000 ∧
    powexp 2 10 1000 = .ok (((2 : Int) ^ (10 : Int).toNat).fmod 1000) ∧
    powexp 3 (-1) 5 = .error .NegativeExponent :=
  ⟨by decide, by decide,
    C6_powexp.1 2 10 1000 (by decide) (by decide) (by decide),
    C6_powexp.2.2 3 (-1) 5 (by decide)⟩

/-- C6 counterexample to the claim at the edge case `k = 0, m = 1`:
the code returns `1`, but `a^0 mod 1 = 0`. -/
theorem C6_counterexample :
    powexp 5 0 1 = .ok 1 ∧ ((5 : Int) ^ (0 : Nat)).fmod 1 = 0 ∧
    (1 : Int) ≠ 0 := by
  decide

/-- C7: corrected.  `egcd a b` terminates on every input and returns
`(x, y, g)` with `g = gcd(|a|, |b|) ≥ 0`; but the Bezout identity the
code establishes is `x*|a| + y*|b| = g`, in terms of the absolute
values the routine substitutes for negative inputs, not `x*a + y*b = g`
as claimed. -/
theorem C7_egcd (a b : Int) :
    ∃ x y, egcd a b = some (x, y, (Int.gcd a b : Int)) ∧
      x * |a| + y * |b| = (Int.gcd a b : Int) :=
  egcd_spec a b

/-- C7 counterexample to the claimed identity on a negative input:
`egcd (-5) 3 = (-1, 2, 1)` yet `(-1)*(-5) + 2*3 = 11 ≠ 1`. -/
theorem C7_counterexample :
    egcd (-5) 3 = some (-1, 2, 1) ∧
    ¬((-1 : Int) * (-5) + 2 * 3 = 1) := by
  decide

/-- C8: confirmed.  For `i ≥ 0`, `to_bytes i` round-trips through
big-endian interpretation, has exactly `max(1, ceil(bitlen(i)/8))`
bytes, all below 256, with a non-zero leading byte for `i > 0` (so
`to_bytes 0` is the single zero byte); negative input fails. -/
theorem C8_to_bytes :
    (∀ i : Int, 0 ≤ i → ∃ bs, to_bytes i = .ok bs ∧
      (fromBytesBE bs : Int) = i ∧
      bs.length = max 1 ((Nat.size i.toNat + 7) / 8) ∧
      (∀ x ∈ bs, x < 256) ∧
      (0 < i → ∃ h t, bs = h :: t ∧ h ≠ 0)) ∧
    (∀ i : Int, i < 0 → to_bytes i = .error .Negative) :=
  to_bytes_spec

/-- C8 witness: the conversion at `i = 258` and the failure at `-1`. -/
theorem C8_to_bytes_witness :
    (0 : Int) ≤ 258 ∧
    (∃ bs, to_bytes 258 = .ok bs ∧
      (fromBytesBE bs : Int) = 258 ∧
      bs.length = max 1 ((Nat.size (258 : Int).toNat + 7) / 8) ∧
      (∀ x ∈ bs, x < 256) ∧
      (0 < (258 : Int) → ∃ h t, bs = h :: t ∧ h ≠ 0)) ∧
    to_bytes (-1) = .error .Negative :=
  ⟨by decide, C8_to_bytes.1 258 (by decide), C8_to_bytes.2 (-1) (by decide)⟩

/-- C9: corrected.  When a pad is too short for a nonempty payload the
XOR loop does fail before completing, but with Python's `IndexError`
(an unchecked exception from indexing past the pad), not a checked
`PadTooShort` failure, and output bytes for the in-range prefix are
produced before the failure. -/
theorem C9_pad_too_short (H x1 x2 : List Nat) (o1 o2 : Nat)
    (hH : 1 ≤ H.length)
    (hshort : x1.length < o1 + H.length ∨ x2.length < o2 + H.length) :
    (convertXorRun H x1 x2 o1 o2).2.2 = some .IndexOutOfRange ∧
    (revertXorRun H x1 x2 o1 o2).2.2 = some .IndexOutOfRange := by
  have hex : ∃ j, 0 ≤ j ∧ j < 0 + H.length ∧
      (x1.length ≤ o1 + j ∨ x2.length ≤ o2 + j) := by
    rcases hshort with h | h
    · exact ⟨H.length - 1, by omega, by omega, Or.inl (by omega)⟩
    · exact ⟨H.length - 1, by omega, by omega, Or.inr (by omega)⟩
  constructor
  · unfold convertXorRun
    rw [List.range_eq_range']
    exact xorLoop_err x1 x2 o1 o2 H.length 0 H
      (List.replicate H.length 0) hex
  · unfold revertXorRun
    rw [List.range_eq_range']
    exact xorLoop_err x1 x2 o1 o2 H.length 0 H
      (List.replicate H.length 0) hex

/-- C9 witness: a two-byte payload against a one-byte second pad. -/
theorem C9_pad_too_short_witness :
    1 ≤ ([1, 1] : List Nat).length ∧
    ([5] : List Nat).length < 0 + ([1, 1] : List Nat).length ∧
    (convertXorRun [1, 1] [7, 7] [5] 0 0).2.2 = some .IndexOutOfRange ∧
    (revertXorRun [1, 1] [7, 7] [5] 0 0).2.2 = some .IndexOutOfRange := by
  refine ⟨by decide, by decide, ?_, ?_⟩
  · exact (C9_pad_too_short [1, 1] [7, 7] [5] 0 0 (by decide)
      (Or.inr (by decide))).1
  · exact (C9_pad_too_short [1, 1] [7, 7] [5] 0 0 (by decide)
      (Or.inr (by decide))).2

/-- C9 counterexample to the original claim: with pad 1 one byte short,
the failure is `IndexOutOfRange`, not `PadTooShort`, and the first
output byte `0 ^ 5 ^ 7 = 2` was already produced when it is raised. -/
theorem C9_counterexample :
    (convertTail [0, 0] [5] [7, 7] 0 0).failure = some .IndexOutOfRange ∧
    (convertTail [0, 0] [5] [7, 7] 0 0).failure ≠ some .PadTooShort ∧
    (convertTail [0, 0] [5] [7, 7] 0 0).outdata = [2, 0] ∧
    (convertTail [0, 0] [5] [7, 7] 0 0).outdata ≠ [0, 0] := by
  decide

/-- C10: confirmed (implicit).  A zero-length INTEGER TLV `02 00` at
the cursor is accepted: the reader returns the value 0 (the empty
big-endian accumulation) and advances the cursor past the two TLV
bytes. -/
theorem C10_zero_length_integer (octets : List Nat) (offs size : Nat)
    (ht : octets[offs]? = some 2) (hl : octets[offs + 1]? = some 0)
    (hsz : offs + 2 ≤ size) :
    readtlvasn1 octets offs size = .ok (.int 0, offs + 2) := by
  have hric : readintvasn1 octets (offs + 2) (offs + 2 + 0) =
      .ok (0, offs + 2 + 0) := by
    unfold readintvasn1
    rw [show offs + 2 + 0 - (offs + 2) = 0 from by omega]
    rw [show beAccum octets 0 (offs + 2) 0 = .ok (0, offs + 2) from rfl,
      errMap_ok]
  unfold readtlvasn1
  simp only [readtlvasn1F]
  rw [if_neg (show ¬ offs + 1 ≥ size by omega)]
  simp only [ht, hl, and128_eq_zero (show (0 : Nat) < 128 by norm_num),
    ne_eq, not_true_eq_false, errPure, errBind_ok, hric]
  norm_num

/-- C10 witness: the reader on the two-byte buffer `02 00`. -/
theorem C10_zero_length_integer_witness :
    ([2, 0] : List Nat)[0]? = some 2 ∧
    ([2, 0] : List Nat)[0 + 1]? = some 0 ∧
    readtlvasn1 [2, 0] 0 2 = .ok (.int 0, 0 + 2) :=
  ⟨by decide, by decide,
    C10_zero_length_integer [2, 0] 0 2 (by decide) (by decide) (by omega)⟩
